import Mathlib

/-!
Verification of the card-editor core of the Genarate-Cards repository
(`src/script.js`): the card data model, the reorder engine, the id counter,
the HTML renderer (`generateHTML`) and the HTML extractor
(`parseHTMLToCards`).

Modelling conventions:
* JavaScript strings are Lean `String`s; the string algorithms the source
  relies on (`trim`, `split`, `join`, the `<br>` regex split) are defined
  below over `List Char`, mirroring the ECMAScript semantics the source
  depends on.
* The browser DOM entry points used by the source (`DOMParser`,
  `querySelectorAll`, `innerHTML`, `textContent`) are modelled over an
  explicit HTML node tree (`HNode`/`HForest`), with the standard
  serialization rules (text nodes escape the markup characters, a `br`
  element serializes as `<br>`).
* `findIndex` returning `-1` in JavaScript is modelled as `Option Nat`;
  `Array.prototype.splice` is modelled by `spliceRemove`/`spliceInsert`.
-/

namespace Cards

/-- A title or rows field of a card.  The legacy persisted format stores the
field as an array of lines; the current format stores a single
newline-joined string (`src/script.js` branches on `typeof x === "string"`
in `generateHTML`, `updatePreview` and `renderEditor`). -/
inductive TextField where
  | str (s : String)
  | arr (lines : List String)
  deriving DecidableEq, Repr

/-- Models `Array.prototype.join("\n")`: joins lines with a newline. -/
def joinNl : List String → String
  | [] => ""
  | [s] => s
  | s :: rest => s ++ "\n" ++ joinNl rest

/-- The coercion `typeof card.title === "string" ? card.title : card.title.join("\n")` —
the normalization applied to a field at every use site. -/
def textOf : TextField → String
  | .str s => s
  | .arr lines => joinNl lines

/-- A card record: `{ id, title, rows }` (`src/script.js`, `addCard`). -/
structure Card where
  id : Nat
  title : TextField
  rows : TextField
  deriving DecidableEq, Repr

/-- Models `Array.prototype.findIndex`: index of the first element satisfying the
predicate; JavaScript's `-1` result is modelled as `none`. -/
def findIndex (p : Card → Bool) : List Card → Option Nat
  | [] => none
  | c :: rest => if p c then some 0 else (findIndex p rest).map (· + 1)

/-- Models `list.splice(i, 1)`: the list with the element at index `i` removed
(identity when `i` is out of range, as for `splice`). -/
def spliceRemove (l : List Card) (i : Nat) : List Card :=
  l.take i ++ l.drop (i + 1)

/-- Models `list.splice(i, 0, a)`: the list with `a` inserted at index `i`
(clamped to the end when `i` exceeds the length, as for `splice`). -/
def spliceInsert (l : List Card) (i : Nat) (a : Card) : List Card :=
  l.take i ++ a :: l.drop i

/-- The reorder engine, `reorderCards` (`src/script.js` lines 152-179).
The source derives `insertBefore` from drop-point geometry
(`clientY < rect.top + rect.height / 2`); that geometry is an external
collaborator, so the resulting boolean is a parameter here.  Everything
after that line is transcribed: locate both indices with `findIndex`,
return the list unchanged if either is `-1`, remove the dragged card with
`splice`, compute the insertion index with the post-removal compensation,
and re-insert with `splice`. -/
def reorderCards (cards : List Card) (draggedCardId targetCardId : Nat)
    (insertBefore : Bool) : List Card :=
  match findIndex (fun card => card.id == draggedCardId) cards,
        findIndex (fun card => card.id == targetCardId) cards with
  | some draggedIndex, some targetIndex =>
    match cards[draggedIndex]? with
    | some draggedCard =>
      let rest := spliceRemove cards draggedIndex
      let newIndex :=
        if insertBefore then
          if targetIndex > draggedIndex then targetIndex - 1 else targetIndex
        else
          if targetIndex > draggedIndex then targetIndex else targetIndex + 1
      spliceInsert rest newIndex draggedCard
    | none => cards
  | _, _ => cards

/-- The drop listener installed by `renderEditor` (`src/script.js` lines
340-371): it guards `draggedCardId !== targetCardId`, re-locates both
indices, and performs the splice with its own inline index arithmetic
(`newIndex = insertBefore ? targetIndex : targetIndex + 1` followed by a
decrement when `draggedIndex < targetIndex && !insertBefore`). -/
def dropHandler (cards : List Card) (draggedCardId targetCardId : Nat)
    (insertBefore : Bool) : List Card :=
  if draggedCardId == targetCardId then cards
  else
    match findIndex (fun c => c.id == draggedCardId) cards,
          findIndex (fun c => c.id == targetCardId) cards with
    | some draggedIndex, some targetIndex =>
      match cards[draggedIndex]? with
      | some draggedCard =>
        let rest := spliceRemove cards draggedIndex
        let newIndex0 := if insertBefore then targetIndex else targetIndex + 1
        let newIndex :=
          if draggedIndex < targetIndex && !insertBefore then newIndex0 - 1
          else newIndex0
        spliceInsert rest newIndex draggedCard
      | none => cards
    | _, _ => cards

/-- Concrete cards used in the examples of the specification. -/
def cA : Card := ⟨1, .str "A", .str "a"⟩

def cB : Card := ⟨2, .str "B", .str "b"⟩

def cC : Card := ⟨3, .str "C", .str "c"⟩

def cD : Card := ⟨4, .str "D", .str "d"⟩

/-! ### String primitives

The ECMAScript string operations the source uses, defined structurally over
`List Char` so that they both evaluate in the kernel and admit induction. -/

/-- The whitespace characters relevant to `String.prototype.trim` and the
`\s` regex class (the source only ever produces spaces, newlines, tabs and
carriage returns). -/
def isWsChar (c : Char) : Bool :=
  c = ' ' || c = '\n' || c = '\t' || c = '\r'

/-- Leading-whitespace removal. -/
def trimStart (l : List Char) : List Char := l.dropWhile isWsChar

/-- Trailing-whitespace removal. -/
def trimEnd (l : List Char) : List Char := (l.reverse.dropWhile isWsChar).reverse

/-- Models `String.prototype.trim`. -/
def jsTrim (l : List Char) : List Char := trimEnd (trimStart l)

/-- Models `String.prototype.split("\n")`; like in JavaScript, the result always
has at least one (possibly empty) segment. -/
def splitNl : List Char → List (List Char)
  | [] => [[]]
  | c :: rest =>
    match splitNl rest with
    | [] => [[]]
    | s :: ss => if c = '\n' then [] :: s :: ss else (c :: s) :: ss

/-- Models `Array.prototype.join(sep)` over character lists. -/
def intercalChars (sep : List Char) : List (List Char) → List Char
  | [] => []
  | [x] => x
  | x :: rest => x ++ sep ++ intercalChars sep rest

/-- HTML serialization of one text character: the browser escapes `&`, `<`
and `>` when serializing a text node. -/
def escapeChar (c : Char) : List Char :=
  if c = '&' then "&amp;".toList
  else if c = '<' then "&lt;".toList
  else if c = '>' then "&gt;".toList
  else [c]

/-- HTML text-node serialization of a character list. -/
def escapeChars : List Char → List Char
  | [] => []
  | c :: rest => escapeChar c ++ escapeChars rest

/-- The function `escapeHtml` (`src/script.js` lines 236-240): the source assigns the
text to `div.textContent` and reads back `div.innerHTML`, which is exactly
the browser's text-node serialization modelled by `escapeChars`. -/
def escapeHtml (s : String) : String := String.mk (escapeChars s.toList)

/-- Decidable substring occurrence: `prefixOf pat l` holds when `pat` is a
prefix of `l`. -/
def prefixOf : List Char → List Char → Bool
  | [], _ => true
  | _ :: _, [] => false
  | a :: as, b :: bs => a = b && prefixOf as bs

/-- Decidable substring occurrence (`String.prototype.includes`). -/
def occursIn (pat : List Char) : List Char → Bool
  | [] => pat.isEmpty
  | c :: rest => prefixOf pat (c :: rest) || occursIn pat rest

/-! ### The HTML renderer (`generateHTML`, `src/script.js` lines 386-500) -/

/-- The per-card line normalization of the renderer:
`.split("\n").filter((line) => line.trim())` — note the kept lines are the
original, untrimmed lines. -/
def keptLines (s : String) : List (List Char) :=
  (splitNl s.toList).filter (fun l => !(jsTrim l).isEmpty)

/-- One card block of the renderer output: the template literal of
`generateHTML`, with the title lines joined by `"<br />\n    "` and the
content lines joined by `"<br />\n      "`.  The card text is interpolated
verbatim (the source applies no escaping here). -/
def cardBlockChars (card : Card) : List Char :=
  "\n  <div class=\"spec-card\">\n    <div class=\"spec-header\">".toList
    ++ intercalChars "<br />\n    ".toList (keptLines (textOf card.title))
    ++ "</div>\n    <div class=\"spec-content\">\n      ".toList
    ++ intercalChars "<br />\n      ".toList (keptLines (textOf card.rows))
    ++ "\n    </div>\n  </div>".toList

/-- The embedded stylesheet of the rendered document (braces written as
character escapes). -/
def cssText : String :=
  "      body \x7b\n        font-family: Arial, sans-serif;\n        padding: 0 10px 0 10px;\n      \x7d\n\n      .specs-container \x7b\n        display: grid;\n        grid-template-columns: repeat(4, 1fr);\n        gap: 2px;\n        margin-bottom: 50px;\n      \x7d\n\n      .spec-card \x7b\n        border: 1px solid rgb(145, 145, 145);\n        background-color: #ffffff;\n        text-align: center;\n        font-size: 14px;\n      \x7d\n\n      .spec-header \x7b\n        background-color: #f9f9f9;\n        padding: 15px;\n        font-weight: bold;\n        border-bottom: 1px solid rgb(145, 145, 145);\n        min-height: 28px;\n      \x7d\n\n      .spec-content \x7b\n        padding: 15px;\n        word-break: break-word;\n        white-space: normal;\n      \x7d\n\n\n      .mobile-br,\n      .mobile-hyphen \x7b\n        display: none;\n      \x7d\n\n      @media (max-width: 768px) \x7b\n        .specs-container \x7b\n          grid-template-columns: repeat(2, 1fr);\n        \x7d\n        .spec-card \x7b\n          font-size: 13px;\n        \x7d\n        .spec-header,\n        .spec-content \x7b\n          padding: 10px;\n        \x7d\n        .mobile-br \x7b\n          display: inline;\n        \x7d\n        .mobile-hyphen::after \x7b\n          content: \"-\";\n        \x7d\n        .mobile-hyphen \x7b\n          display: inline;\n        \x7d\n      \x7d\n\n      @media (max-width: 480px) \x7b\n        .specs-container \x7b\n          grid-template-columns: 1fr;\n        \x7d\n        .spec-card \x7b\n          font-size: 12px;\n        \x7d\n        .spec-header,\n        .spec-content \x7b\n          padding: 8px;\n        \x7d\n      \x7d\n"

/-- Everything of the rendered document before the interpolated card
blocks. -/
def docPrefix : String :=
  "<!DOCTYPE html>\n<html lang=\"de\">\n  <head>\n    <meta charset=\"UTF-8\" />\n    <meta\n      name=\"viewport\"\n      content=\"width=device-width, initial-scale=1.0, maximum-scale=1.0\"\n    />\n    <style>\n"
    ++ cssText
    ++ "    </style>\n  </head>\n  <body>\n    <div class=\"specs-container\">\n      "

/-- Everything of the rendered document after the interpolated card
blocks. -/
def docSuffix : String := "\n    </div>\n  </body>\n</html>"

/-- The renderer `generateHTML` (`src/script.js` lines 386-500): the card blocks joined
by `"\n  "`, spliced between the fixed document prefix and suffix. -/
def generateHTML (cards : List Card) : String :=
  String.mk (docPrefix.toList
    ++ intercalChars "\n  ".toList (cards.map cardBlockChars)
    ++ docSuffix.toList)

/-! ### Load-time normalization (`loadData`, `src/script.js` lines 550-579) -/

/-- The legacy-format conversion `loadData` applies to each stored card
field: an array of lines is joined with `"\n"`; a string is kept as is. -/
def loadNormalizeField : TextField → TextField
  | .arr lines => .str (joinNl lines)
  | .str s => .str s

/-- The per-card conversion loop of `loadData`. -/
def loadNormalizeCard (c : Card) : Card :=
  { c with title := loadNormalizeField c.title, rows := loadNormalizeField c.rows }

/-! ### DOM model

`parseHTMLToCards` works on the browser DOM (`DOMParser`,
`querySelectorAll`, `innerHTML`, `textContent`).  The DOM is modelled as a
tree of elements and text nodes; a mutual inductive keeps all recursion
structural so that everything evaluates in the kernel. -/

mutual
inductive HNode : Type where
  | text (s : String) : HNode
  | elem (tag className : String) (children : HForest) : HNode

inductive HForest : Type where
  | nil : HForest
  | cons (head : HNode) (tail : HForest) : HForest
end

/-- The `br` element. -/
def brNode : HNode := .elem "br" "" .nil

/-- The whitespace-separated tokens of a `class` attribute value. -/
def splitWs : List Char → List (List Char)
  | [] => [[]]
  | c :: rest =>
    match splitWs rest with
    | [] => [[]]
    | s :: ss => if isWsChar c then [] :: s :: ss else (c :: s) :: ss

/-- Class-attribute membership, as for a CSS class selector. -/
def hasClass (className : String) (cls : String) : Bool :=
  ((splitWs className.toList).filter (fun t => !t.isEmpty)).contains cls.toList

/-- The CSS selector shapes used by `parseHTMLToCards`: class selectors,
tag selectors, and the attribute-substring selector
`div[class*="card"]`. -/
inductive Selector where
  | cls (name : String)
  | tagSel (name : String)
  | divClassContains (sub : String)
  deriving DecidableEq, Repr

/-- Whether an element with the given tag and `class` attribute matches a
selector. -/
def selMatches : Selector → String → String → Bool
  | .cls c, _, className => hasClass className c
  | .tagSel t, tag, _ => tag == t
  | .divClassContains sub, tag, className =>
    tag == "div" && occursIn sub.toList className.toList

mutual
/-- Models `querySelectorAll` restricted to one node: the node itself (if it is a
matching element) followed by its matching descendants, in document
order. -/
def qsaNode (sel : Selector) : HNode → List HNode
  | .text _ => []
  | .elem tag className ch =>
    (if selMatches sel tag className then [HNode.elem tag className ch] else [])
      ++ qsaForest sel ch

/-- Models `querySelectorAll` over a forest, in document order. -/
def qsaForest (sel : Selector) : HForest → List HNode
  | .nil => []
  | .cons n t => qsaNode sel n ++ qsaForest sel t
end

/-- Models `element.querySelector(sel)`: the first matching descendant (the
element itself is not a candidate). -/
def qsel (sel : Selector) : HNode → Option HNode
  | .text _ => none
  | .elem _ _ ch => (qsaForest sel ch).head?

mutual
/-- HTML serialization of a node, as read back through `innerHTML`: text
nodes escape `&`, `<`, `>`; `br` serializes as `<br>`; other elements as a
tag pair with their `class` attribute. -/
def nodeSerialize : HNode → List Char
  | .text s => escapeChars s.toList
  | .elem tag className ch =>
    if tag == "br" then "<br>".toList
    else
      "<".toList ++ tag.toList
        ++ (if className == "" then []
            else " class=\"".toList ++ className.toList ++ "\"".toList)
        ++ ">".toList ++ forestSerialize ch
        ++ "</".toList ++ tag.toList ++ ">".toList

/-- Serialization of a forest of nodes. -/
def forestSerialize : HForest → List Char
  | .nil => []
  | .cons n t => nodeSerialize n ++ forestSerialize t
end

/-- Models `element.innerHTML`: the serialization of the children. -/
def innerHTML : HNode → List Char
  | .text _ => []
  | .elem _ _ ch => forestSerialize ch

mutual
/-- Models `node.textContent`: the concatenated text data of all descendants. -/
def nodeText : HNode → List Char
  | .text s => s.toList
  | .elem _ _ ch => forestText ch

/-- Models `textContent` over a forest. -/
def forestText : HForest → List Char
  | .nil => []
  | .cons n t => nodeText n ++ forestText t
end

/-- Models `element.children` of a forest: the direct element children, skipping
text nodes. -/
def elemChildrenList : HForest → List HNode
  | .nil => []
  | .cons n t =>
    (match n with
     | .elem .. => [n]
     | .text _ => []) ++ elemChildrenList t

/-- The children forest of a node. -/
def childrenOf : HNode → HForest
  | .text _ => .nil
  | .elem _ _ ch => ch

/-! ### The extractor (`parseHTMLToCards`, `src/script.js` lines 718-881) -/

/-- Tail of a `<br>` tag: expects the closing `>` and returns the
remainder. -/
def brClose : List Char → Option (List Char)
  | [] => none
  | c :: rest => if c = '>' then some rest else none

/-- After `<br` and the whitespace of `\s*`: an optional `/` and then the
closing `>`. -/
def brAfterWs : List Char → Option (List Char)
  | [] => none
  | c :: rest => if c = '/' then brClose rest else brClose (c :: rest)

/-- One step of the `<br>` split: if the list starts with a tag matched by
the regex `/<br\s*\/?>/i`, return the remainder after that tag. -/
def brMatch : List Char → Option (List Char)
  | c0 :: c1 :: c2 :: rest =>
    if c0 = '<' ∧ (c1 = 'b' ∨ c1 = 'B') ∧ (c2 = 'r' ∨ c2 = 'R') then
      brAfterWs (rest.dropWhile isWsChar)
    else none
  | _ => none

/-- Fuelled splitter for `.split(/<br\s*\/?>/i)`.  The fuel only serves to
make the recursion structural; `splitBr` supplies `l.length`, which is
always sufficient because every `<br>` match consumes at least four
characters. -/
def splitBrF : Nat → List Char → List (List Char)
  | _, [] => [[]]
  | 0, l => [l]
  | fuel + 1, c :: rest =>
    match brMatch (c :: rest) with
    | some r => [] :: splitBrF fuel r
    | none =>
      match splitBrF fuel rest with
      | [] => [[]]
      | s :: ss => (c :: s) :: ss

/-- Models `String.prototype.split(/<br\s*\/?>/i)`. -/
def splitBr (l : List Char) : List (List Char) := splitBrF l.length l

/-- A single-text-node `div`, as built by the extractor's
`document.createElement('div')` plus `textContent` assignment. -/
def tempTextDiv (l : List Char) : HNode :=
  .elem "div" "" (.cons (.text (String.mk l)) .nil)

/-- The parse of `lines.join('<br>')` assigned to `innerHTML`: text nodes
interleaved with `br` elements. -/
def brJoinForest : List (List Char) → HForest
  | [] => .nil
  | [l] => .cons (.text (String.mk l)) .nil
  | l :: rest => .cons (.text (String.mk l)) (.cons brNode (brJoinForest rest))

/-- The canonical block selector `.spec-card`. -/
def specCardSel : Selector := .cls "spec-card"

/-- The generic card-container selectors tried, in order, when no
`.spec-card` matches (`cardSelectors` in the source). -/
def cardSelectors : List Selector :=
  [.cls "card", .cls "content-card", .cls "item", .cls "box",
   .divClassContains "card", .tagSel "article", .tagSel "section"]

/-- The generic header selectors (`headerSelectors` in the source). -/
def headerSelectors : List Selector :=
  [.cls "header", .cls "title", .cls "card-header", .cls "card-title",
   .tagSel "h1", .tagSel "h2", .tagSel "h3", .tagSel "h4", .tagSel "h5",
   .tagSel "h6", .cls "name", .cls "label"]

/-- The generic content selectors (`contentSelectors` in the source). -/
def contentSelectors : List Selector :=
  [.cls "content", .cls "body", .cls "card-body", .cls "card-content",
   .cls "description", .cls "text", .cls "details", .tagSel "p"]

/-- The loop `for (const selector of ...) { headerElement = card.querySelector(...);
if (headerElement) break; }` — the first selector that matches wins. -/
def firstSel (sels : List Selector) (card : HNode) : Option HNode :=
  match sels with
  | [] => none
  | s :: rest =>
    match qsel s card with
    | some e => some e
    | none => firstSel rest card

/-- The document-level selector loop of stage 3: the first selector in the
list with at least one match wins. -/
def trySelectors (sels : List Selector) (f : HForest) : List HNode :=
  match sels with
  | [] => []
  | s :: rest =>
    let r := qsaForest s f
    if r.isEmpty then trySelectors rest f else r

/-- The header/content resolution chain applied to one matched card block
(`src/script.js` lines 776-849): canonical `.spec-header`/`.spec-content`
first, then the generic selector lists for whichever is missing, then — if
both are still unresolved — the structural fallback on direct element
children, and finally the `textContent` line split. -/
def resolveHeaderContent (card : HNode) : Option (HNode × HNode) :=
  let h0 := qsel (.cls "spec-header") card
  let c0 := qsel (.cls "spec-content") card
  let hc :=
    if h0.isNone || c0.isNone then
      let h1 := match h0 with
        | some h => some h
        | none => firstSel headerSelectors card
      let c1 := match c0 with
        | some c => some c
        | none => firstSel contentSelectors card
      if h1.isNone && c1.isNone then
        match elemChildrenList (childrenOf card) with
        | a :: b :: _ => (some a, some b)
        | [a] => (some a, some a)
        | [] =>
          let txt := jsTrim (nodeText card)
          if txt.isEmpty then ((none : Option HNode), (none : Option HNode))
          else
            let lines := ((splitNl txt).map jsTrim).filter (fun l => !l.isEmpty)
            match lines with
            | l1 :: l2 :: rest =>
              (some (tempTextDiv l1), some (.elem "div" "" (brJoinForest (l2 :: rest))))
            | _ => (some (tempTextDiv txt), some (tempTextDiv txt))
      else (h1, c1)
    else (h0, c0)
  match hc with
  | (some h, some c) => some (h, c)
  | _ => none

/-- The title/rows text recovered from one card block: `innerHTML`,
trimmed, split on the `<br>` regex, each row trimmed, empty rows dropped;
the title defaults to `"Untitled"` and the rows to `""`. -/
def extractBlock (block : HNode) : Option (String × String) :=
  match resolveHeaderContent block with
  | none => none
  | some (h, c) =>
    let titleRows := ((splitBr (jsTrim (innerHTML h))).map jsTrim).filter (fun r => !r.isEmpty)
    let contentRows := ((splitBr (jsTrim (innerHTML c))).map jsTrim).filter (fun r => !r.isEmpty)
    some
      (if titleRows.isEmpty then "Untitled" else String.mk (intercalChars ['\n'] titleRows),
       if contentRows.isEmpty then "" else String.mk (intercalChars ['\n'] contentRows))

/-- The result record `{ cards, maxId }` of `parseHTMLToCards`. -/
structure ParseResult where
  cards : List Card
  maxId : Nat
  deriving DecidableEq, Repr

/-- The `specCards.forEach` loop: skipped blocks leave both the card list
and `maxId` untouched; each successful block pushes a card with id
`++maxId`. -/
def processBlocks (blocks : List HNode) : ParseResult :=
  let r := blocks.foldl
    (fun acc block =>
      match extractBlock block with
      | none => acc
      | some (t, rws) => (acc.1 ++ [⟨acc.2 + 1, .str t, .str rws⟩], acc.2 + 1))
    (([] : List Card), (0 : Nat))
  ⟨r.1, r.2⟩

/-- The exact error message thrown when the whole fallback chain finds no
card blocks. -/
def noCardsMsg : String :=
  "No cards found in HTML. Please ensure your HTML contains card-like elements.\n\nPreferred structure:\n<div class=\"spec-card\">\n  <div class=\"spec-header\">Card Title</div>\n  <div class=\"spec-content\">Card content here</div>\n</div>\n\nOr use common card classes like: .card, .content-card, .item, .box, article, or section"

/-- The extractor `parseHTMLToCards` (`src/script.js` lines 718-881), over the parsed
node forest of the input markup.  Stage 2 of the source re-parses the same
text as a fragment; both parses of the same markup yield the same node
forest in this model, so stage 2 queries the same tree.  Stage 3 tries the
generic card selectors in order; if nothing matched at all the function
throws (`Except.error`) with the descriptive message. -/
def parseHTMLToCards (doc : HForest) : Except String ParseResult :=
  let specCards := qsaForest specCardSel doc
  let specCards := if specCards.isEmpty then qsaForest specCardSel doc else specCards
  let specCards := if specCards.isEmpty then trySelectors cardSelectors doc else specCards
  if specCards.isEmpty then .error noCardsMsg
  else .ok (processBlocks specCards)

/-! ### The DOM image of the rendered document

`renderedDoc cards` is the node tree the browser produces when parsing
`generateHTML cards`.  Text nodes carry the literal text of the document,
including the template's indentation; this correspondence is exact when the
card text contains none of the markup characters `&`, `<`, `>` (which is a
hypothesis of every theorem that uses `renderedDoc` together with
`generateHTML`). -/

/-- Continuation of the header forest: each further title line is preceded
by a `br` and the separator text `"\n    "`. -/
def headerForestAux : List (List Char) → HForest
  | [] => .nil
  | l :: rest =>
    .cons brNode (.cons (.text (String.mk ("\n    ".toList ++ l))) (headerForestAux rest))

/-- The children of a rendered `spec-header`: the title lines joined by
`"<br />\n    "`. -/
def headerForest : List (List Char) → HForest
  | [] => .nil
  | l :: rest => .cons (.text (String.mk l)) (headerForestAux rest)

/-- Continuation of the content forest: each further content line is
preceded by a `br` and the separator text `"\n      "`; the last line
carries the closing indentation `"\n    "`. -/
def contentForestAux : List (List Char) → HForest
  | [] => .nil
  | l :: rest =>
    .cons brNode
      (.cons (.text (String.mk ("\n      ".toList ++ l
          ++ (if rest.isEmpty then "\n    ".toList else []))))
        (contentForestAux rest))

/-- The children of a rendered `spec-content`: the content lines joined by
`"<br />\n      "`, wrapped in the template's indentation. -/
def contentForest : List (List Char) → HForest
  | [] => .cons (.text "\n      \n    ") .nil
  | l :: rest =>
    .cons (.text (String.mk ("\n      ".toList ++ l
        ++ (if rest.isEmpty then "\n    ".toList else []))))
      (contentForestAux rest)

/-- The parse of one rendered card block. -/
def renderedCardNode (c : Card) : HNode :=
  .elem "div" "spec-card"
    (.cons (.text "\n    ")
      (.cons (.elem "div" "spec-header" (headerForest (keptLines (textOf c.title))))
        (.cons (.text "\n    ")
          (.cons (.elem "div" "spec-content" (contentForest (keptLines (textOf c.rows))))
            (.cons (.text "\n  ") .nil)))))

/-- The card blocks after the first, each preceded by the join separator
text. -/
def containerRest : List Card → HForest
  | [] => .cons (.text "\n    ") .nil
  | c :: rest => .cons (.text "\n  \n  ") (.cons (renderedCardNode c) (containerRest rest))

/-- The children of the rendered `specs-container`. -/
def containerChildren : List Card → HForest
  | [] => .cons (.text "\n      \n    ") .nil
  | c :: rest => .cons (.text "\n      \n  ") (.cons (renderedCardNode c) (containerRest rest))

/-- The parse of `generateHTML cards`: the full document tree, including
the `head` with the stylesheet text. -/
def renderedDoc (cards : List Card) : HForest :=
  .cons
    (.elem "html" ""
      (.cons
        (.elem "head" ""
          (.cons (.elem "meta" "" .nil)
            (.cons (.elem "meta" "" .nil)
              (.cons (.elem "style" "" (.cons (.text cssText) .nil)) .nil))))
        (.cons
          (.elem "body" ""
            (.cons (.elem "div" "specs-container" (containerChildren cards)) .nil))
          .nil)))
    .nil

/-- The separator blocks of a serialized header/content region: each later
line is preceded by `<br>` (the `innerHTML` form of `<br />`) and the
template's indentation. -/
def brFlat (w : List Char) : List (List Char) → List Char
  | [] => []
  | l :: rest => "<br>".toList ++ w ++ l ++ brFlat w rest

/-- The specification's normalization of a title/rows text: split on
newlines, trim every line, drop the empty ones, join with newlines. -/
def specNormalize (s : String) : String :=
  String.mk (intercalChars ['\n'] ((keptLines s).map jsTrim))

/-- A character that is safe for the canonical markup round trip: not one
of the markup characters `&`, `<`, `>`. -/
def safeChar (ch : Char) : Bool :=
  !(ch = '&' || ch = '<' || ch = '>')

/-- A card whose title and rows consist only of canonical-safe
characters. -/
def canonicalSafeCard (c : Card) : Bool :=
  (textOf c.title).toList.all safeChar && (textOf c.rows).toList.all safeChar

/-- The cards the extractor recovers from the rendered document: ids
renumbered consecutively from `n + 1`, title and rows replaced by their
normalized line content. -/
def roundtripCards (n : Nat) : List Card → List Card
  | [] => []
  | c :: rest =>
    ⟨n + 1, .str (specNormalize (textOf c.title)), .str (specNormalize (textOf c.rows))⟩
      :: roundtripCards (n + 1) rest

/-! ### Helper lemmas about `findIndex` and `splice` -/

theorem findIndex_eq_none {p : Card → Bool} {l : List Card}
    (h : ∀ c ∈ l, p c = false) : findIndex p l = none := by
  induction l with
  | nil => rfl
  | cons c rest ih =>
    have hc := h c (by simp)
    simp [findIndex, hc, ih fun x hx => h x (by simp [hx])]

theorem findIndex_isSome {p : Card → Bool} {l : List Card}
    (h : ∃ c ∈ l, p c = true) : ∃ i, findIndex p l = some i := by
  induction l with
  | nil => simp at h
  | cons c rest ih =>
    by_cases hc : p c = true
    · exact ⟨0, by simp [findIndex, hc]⟩
    · obtain ⟨x, hx, hpx⟩ := h
      rcases List.mem_cons.mp hx with hx | hx
      · subst hx; exact absurd hpx hc
      · obtain ⟨i, hi⟩ := ih ⟨x, hx, hpx⟩
        exact ⟨i + 1, by simp [findIndex, hc, hi]⟩

theorem findIndex_some_elem {p : Card → Bool} {l : List Card} {i : Nat}
    (h : findIndex p l = some i) : ∃ c, l[i]? = some c ∧ p c = true := by
  induction l generalizing i with
  | nil => simp [findIndex] at h
  | cons c rest ih =>
    by_cases hc : p c = true
    · simp [findIndex, hc] at h
      subst h
      exact ⟨c, by simp, hc⟩
    · simp [findIndex, hc] at h
      obtain ⟨j, hj, rfl⟩ := h
      obtain ⟨x, hx, hpx⟩ := ih hj
      exact ⟨x, by simpa using hx, hpx⟩

theorem findIndex_append_of {p : Card → Bool} (u : List Card) {x : Card}
    (v : List Card) (hu : ∀ y ∈ u, p y = false) (hx : p x = true) :
    findIndex p (u ++ x :: v) = some u.length := by
  induction u with
  | nil => simp [findIndex, hx]
  | cons a u ih =>
    have ha := hu a (by simp)
    simp [findIndex, ha, ih fun y hy => hu y (by simp [hy])]

theorem findIndex_some_decomp {p : Card → Bool} {l : List Card} {i : Nat}
    (h : findIndex p l = some i) :
    ∃ u x v, l = u ++ x :: v ∧ u.length = i ∧ p x = true ∧ ∀ y ∈ u, p y = false := by
  induction l generalizing i with
  | nil => simp [findIndex] at h
  | cons c rest ih =>
    by_cases hc : p c = true
    · simp [findIndex, hc] at h
      exact ⟨[], c, rest, by simp, by simp [h], hc, by simp⟩
    · simp [findIndex, hc] at h
      obtain ⟨j, hj, rfl⟩ := h
      obtain ⟨u, x, v, hl, hlen, hx, hu⟩ := ih hj
      refine ⟨c :: u, x, v, by simp [hl], by simp [hlen], hx, ?_⟩
      intro y hy
      rcases List.mem_cons.mp hy with hy | hy
      · subst hy; simpa using hc
      · exact hu y hy

theorem findIndex_front {p : Card → Bool} {u w : List Card} {i : Nat}
    (h : findIndex p (u ++ w) = some i) (hi : i < u.length) :
    findIndex p u = some i := by
  induction u generalizing i with
  | nil => simp at hi
  | cons a u ih =>
    by_cases ha : p a = true
    · simp [findIndex, ha] at h ⊢
      exact h
    · simp [findIndex, ha] at h ⊢
      obtain ⟨j, hj, rfl⟩ := h
      exact ⟨j, ih hj (by simpa using hi), rfl⟩

theorem getAt_append (u : List Card) (d : Card) (w : List Card) :
    (u ++ d :: w)[u.length]? = some d := by
  induction u with
  | nil => simp
  | cons a u ih => simpa using ih

/-- Reduction of `reorderCards` when both ids are found: the splice with
the source's index arithmetic. -/
theorem reorderCards_eq_of {cards : List Card} {dId tId di ti : Nat} {dc : Card}
    (hd : findIndex (fun c => c.id == dId) cards = some di)
    (ht : findIndex (fun c => c.id == tId) cards = some ti)
    (hc : cards[di]? = some dc) (b : Bool) :
    reorderCards cards dId tId b =
      spliceInsert (spliceRemove cards di)
        (if b then if ti > di then ti - 1 else ti
         else if ti > di then ti else ti + 1) dc := by
  simp only [reorderCards, hd, ht, hc]

/-- The function `reorderCards` is the identity when the dragged id is not found. -/
theorem reorderCards_eq_of_none_left {cards : List Card} {dId tId : Nat}
    (hd : findIndex (fun c => c.id == dId) cards = none) (b : Bool) :
    reorderCards cards dId tId b = cards := by
  simp only [reorderCards, hd]

/-- The function `reorderCards` is the identity when the target id is not found. -/
theorem reorderCards_eq_of_none_right {cards : List Card} {dId tId : Nat}
    (ht : findIndex (fun c => c.id == tId) cards = none) (b : Bool) :
    reorderCards cards dId tId b = cards := by
  rcases hd : findIndex (fun c => c.id == dId) cards with _ | i <;>
    simp only [reorderCards, hd, ht]

theorem spliceRemove_append (u : List Card) (x : Card) (w : List Card) :
    spliceRemove (u ++ x :: w) u.length = u ++ w := by
  induction u with
  | nil => simp [spliceRemove]
  | cons a u ih =>
    simp only [spliceRemove, List.cons_append, List.length_cons, List.take_succ_cons,
      List.drop_succ_cons] at ih ⊢
    simp [ih]

theorem spliceInsert_append (u w : List Card) (x : Card) :
    spliceInsert (u ++ w) u.length x = u ++ x :: w := by
  induction u with
  | nil => simp [spliceInsert]
  | cons a u ih =>
    simp only [spliceInsert, List.cons_append, List.length_cons, List.take_succ_cons,
      List.drop_succ_cons] at ih ⊢
    simp [ih]

/-- C2: the exact post-removal index arithmetic of `reorderCards` for
`insertBefore = true` — the dragged card is inserted at `targetIndex` if
`targetIndex < draggedIndex` and at `targetIndex - 1` otherwise — together
with the two concrete reorder examples of the specification:
`reorder([A,B,C,D], 1, 3, insertBefore := false) = [B,C,A,D]` and
`reorder([A,B,C,D], 4, 1, insertBefore := true) = [D,A,B,C]`. -/
theorem reorder_insertBefore_index :
    (∀ (cards : List Card) (dId tId di ti : Nat) (dc : Card),
        dId ≠ tId →
        findIndex (fun c => c.id == dId) cards = some di →
        findIndex (fun c => c.id == tId) cards = some ti →
        cards[di]? = some dc →
        reorderCards cards dId tId true =
          spliceInsert (spliceRemove cards di) (if ti < di then ti else ti - 1) dc)
    ∧ reorderCards [cA, cB, cC, cD] 1 3 false = [cB, cC, cA, cD]
    ∧ reorderCards [cA, cB, cC, cD] 4 1 true = [cD, cA, cB, cC] := by
  refine ⟨?_, by rfl, by rfl⟩
  intro cards dId tId di ti dc hne hd ht hc
  have hdi : di ≠ ti := by
    intro h
    subst h
    obtain ⟨x, hx, hpx⟩ := findIndex_some_elem hd
    obtain ⟨y, hy, hpy⟩ := findIndex_some_elem ht
    rw [hx] at hy
    cases hy
    have h1 : x.id = dId := by simpa using hpx
    have h2 : x.id = tId := by simpa using hpy
    exact hne (by omega)
  rw [reorderCards_eq_of hd ht hc true]
  simp only [if_true]
  congr 1
  split_ifs <;> omega

/-- Witness for `reorder_insertBefore_index`: the general arithmetic part
applied to the concrete list `[A,B,C,D]`, dragging card 1 before card 3. -/
theorem reorder_insertBefore_index_witness :
    reorderCards [cA, cB, cC, cD] 1 3 true =
      spliceInsert (spliceRemove [cA, cB, cC, cD] 0) (if 2 < 0 then 2 else 2 - 1) cA :=
  reorder_insertBefore_index.1 [cA, cB, cC, cD] 1 3 0 2 cA (by decide)
    (by rfl) (by rfl) (by rfl)

/-- C4: a reorder whose dragged id or target id is absent from the list
leaves `reorderCards` unchanged, and the drop listener additionally
no-ops (silently, not as an error) when the two ids are equal. -/
theorem reorder_noop :
    (∀ (cards : List Card) (dId tId : Nat) (b : Bool),
        ((∀ c ∈ cards, c.id ≠ dId) ∨ (∀ c ∈ cards, c.id ≠ tId)) →
        reorderCards cards dId tId b = cards)
    ∧ (∀ (cards : List Card) (dId tId : Nat) (b : Bool),
        ((∀ c ∈ cards, c.id ≠ dId) ∨ (∀ c ∈ cards, c.id ≠ tId) ∨ dId = tId) →
        dropHandler cards dId tId b = cards) := by
  constructor
  · intro cards dId tId b h
    rcases h with h | h
    · exact reorderCards_eq_of_none_left
        (findIndex_eq_none fun c hc => by simpa using h c hc) b
    · exact reorderCards_eq_of_none_right
        (findIndex_eq_none fun c hc => by simpa using h c hc) b
  · intro cards dId tId b h
    rcases h with h | h | h
    · by_cases he : dId = tId
      · simp [dropHandler, he]
      · have hn : findIndex (fun c => c.id == dId) cards = none :=
          findIndex_eq_none fun c hc => by simpa using h c hc
        simp only [dropHandler, beq_iff_eq, if_neg he, hn]
    · by_cases he : dId = tId
      · simp [dropHandler, he]
      · have hn : findIndex (fun c => c.id == tId) cards = none :=
          findIndex_eq_none fun c hc => by simpa using h c hc
        rcases hd : findIndex (fun c => c.id == dId) cards with _ | i <;>
          simp only [dropHandler, beq_iff_eq, if_neg he, hn, hd]
    · simp [dropHandler, h]

/-- Witness for `reorder_noop`: id 99 is absent from `[A,B,C,D]`, so the
reorder leaves the list unchanged; equal ids no-op through the drop
listener. -/
theorem reorder_noop_witness :
    reorderCards [cA, cB, cC, cD] 99 1 true = [cA, cB, cC, cD] ∧
      dropHandler [cA, cB, cC, cD] 2 2 false = [cA, cB, cC, cD] :=
  ⟨reorder_noop.1 [cA, cB, cC, cD] 99 1 true (Or.inl (by decide)),
   reorder_noop.2 [cA, cB, cC, cD] 2 2 false (Or.inr (Or.inr rfl))⟩

/-- C10: `reorderCards` always returns a permutation of its input — the
same length and the same multiset of cards, with nothing lost or
duplicated (this holds even in the no-op cases). -/
theorem reorder_perm (cards : List Card) (dId tId : Nat) (b : Bool) :
    (reorderCards cards dId tId b).Perm cards := by
  rcases hfd : findIndex (fun c => c.id == dId) cards with _ | di
  · rw [reorderCards_eq_of_none_left hfd]
  rcases hft : findIndex (fun c => c.id == tId) cards with _ | ti
  · rw [reorderCards_eq_of_none_right hft]
  rcases hc : cards[di]? with _ | dc
  · have : di < cards.length ∨ cards.length ≤ di := by omega
    rcases this with hlt | hge
    · rw [List.getElem?_eq_getElem hlt] at hc
      cases hc
    · simp only [reorderCards, hfd, hft, List.getElem?_eq_none hge]
      exact .refl _
  have hlt : di < cards.length := by
    by_contra hge
    rw [List.getElem?_eq_none (by omega)] at hc
    cases hc
  have hdc : cards[di] = dc := by
    have h := List.getElem?_eq_getElem hlt
    rw [h] at hc
    exact Option.some.inj hc
  have hsplit : cards.take di ++ dc :: cards.drop (di + 1) = cards := by
    rw [← hdc, List.getElem_cons_drop, List.take_append_drop]
  rw [reorderCards_eq_of hfd hft hc b]
  have h1 : ∀ n, (spliceInsert (spliceRemove cards di) n dc).Perm
      (dc :: spliceRemove cards di) := by
    intro n
    have hmid : ((spliceRemove cards di).take n ++ dc :: (spliceRemove cards di).drop n).Perm
        (dc :: ((spliceRemove cards di).take n ++ (spliceRemove cards di).drop n)) :=
      List.perm_middle
    rw [List.take_append_drop] at hmid
    exact hmid
  have h2 : (dc :: spliceRemove cards di).Perm cards := by
    have h3 : (dc :: (cards.take di ++ cards.drop (di + 1))).Perm
        (cards.take di ++ dc :: cards.drop (di + 1)) := List.perm_middle.symm
    rw [hsplit] at h3
    exact h3
  exact (h1 _).trans h2


/-! ### Idempotency of the reorder arithmetic -/

theorem findIndex_ne_of_ids_ne {cards : List Card} {dId tId di ti : Nat}
    (hne : dId ≠ tId)
    (hd : findIndex (fun c => c.id == dId) cards = some di)
    (ht : findIndex (fun c => c.id == tId) cards = some ti) : di ≠ ti := by
  intro h
  subst h
  obtain ⟨x, hx, hpx⟩ := findIndex_some_elem hd
  obtain ⟨y, hy, hpy⟩ := findIndex_some_elem ht
  rw [hx] at hy
  cases hy
  have h1 : x.id = dId := by simpa using hpx
  have h2 : x.id = tId := by simpa using hpy
  exact hne (by omega)

theorem findIndex_decompBoth {p q : Card → Bool} {l : List Card} {i j : Nat}
    (hp : findIndex p l = some i) (hq : findIndex q l = some j) (hij : i < j) :
    ∃ a x b y c, l = a ++ x :: (b ++ y :: c) ∧ a.length = i ∧
      (a ++ x :: b).length = j ∧ p x = true ∧ q y = true ∧
      (∀ z ∈ a, p z = false) ∧ (∀ z ∈ a ++ x :: b, q z = false) := by
  obtain ⟨u, y, v, rfl, hlen, hqy, hu⟩ := findIndex_some_decomp hq
  have hi' : i < u.length := by omega
  have hpu : findIndex p u = some i := findIndex_front hp hi'
  obtain ⟨a, x, b, rfl, hlen2, hpx, ha⟩ := findIndex_some_decomp hpu
  exact ⟨a, x, b, y, v, by simp, hlen2, hlen, hpx, hqy, ha, hu⟩

/-- A card list of the shape `u ++ d :: t :: v` — the dragged card already
directly before the target, with neither id occurring in `u` — is a fixed
point of `reorderCards` with `insertBefore = true`. -/
theorem reorder_fix_before {u v : List Card} {d t : Card} {dId tId : Nat}
    (hd : (d.id == dId) = true) (ht : (t.id == tId) = true)
    (_htd : (t.id == dId) = false) (hdt : (d.id == tId) = false)
    (hu : ∀ z ∈ u, (z.id == dId) = false ∧ (z.id == tId) = false) :
    reorderCards (u ++ d :: t :: v) dId tId true = u ++ d :: t :: v := by
  have hfd : findIndex (fun c => c.id == dId) (u ++ d :: t :: v) = some u.length :=
    findIndex_append_of u (t :: v) (fun z hz => (hu z hz).1) hd
  have hft : findIndex (fun c => c.id == tId) (u ++ d :: t :: v) = some (u.length + 1) := by
    have he : u ++ d :: t :: v = (u ++ [d]) ++ t :: v := by simp
    rw [he]
    have hfree : ∀ z ∈ u ++ [d], (z.id == tId) = false := by
      intro z hz
      rcases List.mem_append.mp hz with hz | hz
      · exact (hu z hz).2
      · simp only [List.mem_singleton] at hz
        subst hz
        exact hdt
    have h := findIndex_append_of (u ++ [d]) v hfree ht
    simpa using h
  have hc : (u ++ d :: t :: v)[u.length]? = some d := getAt_append u d (t :: v)
  rw [reorderCards_eq_of hfd hft hc true]
  rw [if_pos rfl, if_pos (Nat.lt_succ_self u.length), Nat.add_sub_cancel]
  rw [spliceRemove_append u d (t :: v), spliceInsert_append u (t :: v) d]

/-- A card list of the shape `u ++ t :: d :: v` — the dragged card already
directly after the target, with neither id occurring in `u` — is a fixed
point of `reorderCards` with `insertBefore = false`. -/
theorem reorder_fix_after {u v : List Card} {d t : Card} {dId tId : Nat}
    (hd : (d.id == dId) = true) (ht : (t.id == tId) = true)
    (htd : (t.id == dId) = false) (_hdt : (d.id == tId) = false)
    (hu : ∀ z ∈ u, (z.id == dId) = false ∧ (z.id == tId) = false) :
    reorderCards (u ++ t :: d :: v) dId tId false = u ++ t :: d :: v := by
  have hassoc : u ++ t :: d :: v = (u ++ [t]) ++ d :: v := by simp
  have hfd : findIndex (fun c => c.id == dId) (u ++ t :: d :: v) = some (u.length + 1) := by
    rw [hassoc]
    have hfree : ∀ z ∈ u ++ [t], (z.id == dId) = false := by
      intro z hz
      rcases List.mem_append.mp hz with hz | hz
      · exact (hu z hz).1
      · simp only [List.mem_singleton] at hz
        subst hz
        exact htd
    have h := findIndex_append_of (u ++ [t]) v hfree hd
    simpa using h
  have hft : findIndex (fun c => c.id == tId) (u ++ t :: d :: v) = some u.length :=
    findIndex_append_of u (d :: v) (fun z hz => (hu z hz).2) ht
  have hc : (u ++ t :: d :: v)[u.length + 1]? = some d := by
    rw [hassoc]
    have h := getAt_append (u ++ [t]) d v
    simpa using h
  rw [reorderCards_eq_of hfd hft hc false]
  rw [if_neg (by simp)]
  rw [if_neg (by omega)]
  have h1 : spliceRemove (u ++ t :: d :: v) (u.length + 1) = (u ++ [t]) ++ v := by
    rw [hassoc]
    have h := spliceRemove_append (u ++ [t]) d v
    simpa using h
  rw [h1]
  have h2 : spliceInsert ((u ++ [t]) ++ v) (u.length + 1) d = (u ++ [t]) ++ d :: v := by
    have h := spliceInsert_append (u ++ [t]) v d
    simpa using h
  rw [h2]
  simp

theorem nodup_not_in_mid {a b c : List Card} {x y : Card}
    (h : ((a ++ x :: (b ++ y :: c)).map Card.id).Nodup) :
    ∀ z ∈ b, z.id ≠ x.id := by
  intro z hz he
  simp only [List.map_append, List.map_cons, List.append_assoc, List.cons_append] at h
  have h1 : (x.id :: (b.map Card.id ++ y.id :: c.map Card.id)).Nodup :=
    List.Nodup.of_append_right h
  have h2 : x.id ∉ b.map Card.id ++ y.id :: c.map Card.id :=
    (List.nodup_cons.mp h1).1
  exact h2 (List.mem_append.mpr (Or.inl (List.mem_map.mpr ⟨z, hz, he⟩)))

/-- C8: the reorder operation is idempotent on resolved positions — for a
card list with pairwise-distinct ids (the CardStore invariant) containing
both the dragged and the target id, applying the same
`reorderCards` move twice gives the same list as applying it once. -/
theorem reorder_idempotent (cards : List Card) (dId tId : Nat) (b : Bool)
    (hne : dId ≠ tId)
    (hdm : ∃ c ∈ cards, c.id = dId) (htm : ∃ c ∈ cards, c.id = tId)
    (hnodup : (cards.map Card.id).Nodup) :
    reorderCards (reorderCards cards dId tId b) dId tId b =
      reorderCards cards dId tId b := by
  have hdm' : ∃ c ∈ cards, (c.id == dId) = true := by
    obtain ⟨c, hc, hcid⟩ := hdm
    exact ⟨c, hc, by simp [hcid]⟩
  have htm' : ∃ c ∈ cards, (c.id == tId) = true := by
    obtain ⟨c, hc, hcid⟩ := htm
    exact ⟨c, hc, by simp [hcid]⟩
  obtain ⟨di, hfd⟩ := findIndex_isSome hdm'
  obtain ⟨ti, hft⟩ := findIndex_isSome htm'
  have hdt : di ≠ ti := findIndex_ne_of_ids_ne hne hfd hft
  rcases Nat.lt_or_ge di ti with hlt | hge
  · -- dragged before target
    obtain ⟨a, x, bs, y, cs, hl, hla, hlb, hpx, hqy, ha, hab⟩ :=
      findIndex_decompBoth hfd hft hlt
    subst hl
    have hxid : x.id = dId := by simpa using hpx
    have hyid : y.id = tId := by simpa using hqy
    have hytd : (y.id == dId) = false := by
      simp only [hyid, beq_eq_false_iff_ne, ne_eq]
      omega
    have hxdt : (x.id == tId) = false := by
      simp only [hxid, beq_eq_false_iff_ne, ne_eq]
      omega
    have hfresh : ∀ z ∈ a ++ bs, (z.id == dId) = false ∧ (z.id == tId) = false := by
      intro z hz
      rcases List.mem_append.mp hz with hz | hz
      · exact ⟨ha z hz, hab z (List.mem_append.mpr (Or.inl hz))⟩
      · refine ⟨?_, hab z (by simp [hz])⟩
        have hzx := nodup_not_in_mid hnodup z hz
        simp only [beq_eq_false_iff_ne, ne_eq]
        omega
    have hc : (a ++ x :: (bs ++ y :: cs))[di]? = some x := by
      rw [← hla]
      exact getAt_append a x (bs ++ y :: cs)
    rw [reorderCards_eq_of hfd hft hc b]
    have hrm : spliceRemove (a ++ x :: (bs ++ y :: cs)) di = a ++ (bs ++ y :: cs) := by
      rw [← hla]
      exact spliceRemove_append a x (bs ++ y :: cs)
    cases b
    · -- insert after
      rw [if_neg (by simp), if_pos (by omega), hrm]
      have hins : spliceInsert (a ++ (bs ++ y :: cs)) ti x =
          (a ++ bs) ++ y :: x :: cs := by
        have he : a ++ (bs ++ y :: cs) = ((a ++ bs) ++ [y]) ++ cs := by simp
        rw [he]
        have hlen : ((a ++ bs) ++ [y]).length = ti := by
          simp only [List.length_append, List.length_cons, List.length_nil] at hlb ⊢
          omega
        rw [← hlen]
        have h := spliceInsert_append ((a ++ bs) ++ [y]) cs x
        simpa using h
      rw [hins]
      have hfix := reorder_fix_after hpx hqy hytd hxdt hfresh (v := cs)
      simpa using hfix
    · -- insert before
      rw [if_pos rfl, if_pos (by omega), hrm]
      have hins : spliceInsert (a ++ (bs ++ y :: cs)) (ti - 1) x =
          (a ++ bs) ++ x :: y :: cs := by
        have he : a ++ (bs ++ y :: cs) = (a ++ bs) ++ y :: cs := by simp
        rw [he]
        have hlen : (a ++ bs).length = ti - 1 := by
          simp only [List.length_append, List.length_cons] at hlb ⊢
          omega
        rw [← hlen]
        exact spliceInsert_append (a ++ bs) (y :: cs) x
      rw [hins]
      have hfix := reorder_fix_before hpx hqy hytd hxdt hfresh (v := cs)
      simpa using hfix
  · -- target before dragged
    have hlt' : ti < di := by omega
    obtain ⟨a, y, bs, x, cs, hl, hla, hlb, hqy, hpx, ha, hab⟩ :=
      findIndex_decompBoth hft hfd hlt'
    subst hl
    have hxid : x.id = dId := by simpa using hpx
    have hyid : y.id = tId := by simpa using hqy
    have hytd : (y.id == dId) = false := hab y (by simp)
    have hxdt : (x.id == tId) = false := by
      simp only [hxid, beq_eq_false_iff_ne, ne_eq]
      omega
    have hfresh : ∀ z ∈ a, (z.id == dId) = false ∧ (z.id == tId) = false := by
      intro z hz
      exact ⟨hab z (List.mem_append.mpr (Or.inl hz)), ha z hz⟩
    have hassoc : a ++ y :: (bs ++ x :: cs) = (a ++ y :: bs) ++ x :: cs := by simp
    have hc : (a ++ y :: (bs ++ x :: cs))[di]? = some x := by
      rw [hassoc, ← hlb]
      exact getAt_append (a ++ y :: bs) x cs
    rw [reorderCards_eq_of hfd hft hc b]
    have hrm : spliceRemove (a ++ y :: (bs ++ x :: cs)) di = a ++ y :: (bs ++ cs) := by
      rw [hassoc, ← hlb]
      have h := spliceRemove_append (a ++ y :: bs) x cs
      rw [h]
      simp
    cases b
    · -- insert after
      rw [if_neg (by simp), if_neg (by omega), hrm]
      have hins : spliceInsert (a ++ y :: (bs ++ cs)) (ti + 1) x =
          a ++ y :: x :: (bs ++ cs) := by
        have he : a ++ y :: (bs ++ cs) = (a ++ [y]) ++ (bs ++ cs) := by simp
        rw [he]
        have hlen : (a ++ [y]).length = ti + 1 := by simp [← hla]
        rw [← hlen]
        have h := spliceInsert_append (a ++ [y]) (bs ++ cs) x
        rw [h]
        simp
      rw [hins]
      exact reorder_fix_after hpx hqy hytd hxdt hfresh (v := bs ++ cs)
    · -- insert before
      rw [if_pos rfl, if_neg (by omega), hrm]
      have hins : spliceInsert (a ++ y :: (bs ++ cs)) ti x =
          a ++ x :: y :: (bs ++ cs) := by
        rw [← hla]
        exact spliceInsert_append a (y :: (bs ++ cs)) x
      rw [hins]
      exact reorder_fix_before hpx hqy hytd hxdt hfresh (v := bs ++ cs)

/-- Witness for `reorder_idempotent`: repeating the move of card 1 after
card 3 on `[A,B,C,D]` leaves the once-reordered list unchanged. -/
theorem reorder_idempotent_witness :
    reorderCards (reorderCards [cA, cB, cC, cD] 1 3 false) 1 3 false =
      reorderCards [cA, cB, cC, cD] 1 3 false :=
  reorder_idempotent [cA, cB, cC, cD] 1 3 false (by decide)
    ⟨cA, by simp, rfl⟩ ⟨cC, by simp, rfl⟩ (by decide)

/-! ### The id counter (`addCard`/`deleteCard`, `src/script.js` lines 104-123) -/

/-- The mutable editor state of `src/script.js`: the global `cards` array
and the global `cardIdCounter`. -/
structure EditorState where
  cards : List Card
  cardIdCounter : Nat
  deriving DecidableEq, Repr

/-- The initial global state (`let cards = []; let cardIdCounter = 0`). -/
def initState : EditorState := ⟨[], 0⟩

/-- The operation `addCard` (`src/script.js` lines 105-116): pushes
`{ id: ++cardIdCounter, title: "New Card Title", rows: "Row 1\nRow 2" }`. -/
def addCard (s : EditorState) : EditorState :=
  ⟨s.cards ++ [⟨s.cardIdCounter + 1, .str "New Card Title", .str "Row 1\nRow 2"⟩],
   s.cardIdCounter + 1⟩

/-- The operation `deleteCard` (`src/script.js` lines 119-123):
`cards = cards.filter((card) => card.id !== cardId)`; the counter is not
touched. -/
def deleteCard (s : EditorState) (cardId : Nat) : EditorState :=
  ⟨s.cards.filter (fun card => card.id != cardId), s.cardIdCounter⟩

/-- A create or remove operation on the editor state. -/
inductive EditorOp where
  | add : EditorOp
  | delete (cardId : Nat) : EditorOp
  deriving DecidableEq, Repr

/-- Apply one operation. -/
def applyOp (s : EditorState) : EditorOp → EditorState
  | .add => addCard s
  | .delete i => deleteCard s i

/-- Apply a sequence of operations, left to right. -/
def applyOps (s : EditorState) : List EditorOp → EditorState
  | [] => s
  | op :: rest => applyOps (applyOp s op) rest

/-- The ids handed out by the `add` operations of a sequence, in creation
order. -/
def assignedIds (s : EditorState) : List EditorOp → List Nat
  | [] => []
  | .add :: rest => (s.cardIdCounter + 1) :: assignedIds (addCard s) rest
  | .delete i :: rest => assignedIds (deleteCard s i) rest

theorem lt_of_mem_assignedIds :
    ∀ (ops : List EditorOp) (s : EditorState) (x : Nat),
      x ∈ assignedIds s ops → s.cardIdCounter < x := by
  intro ops
  induction ops with
  | nil => intro s x hx; simp [assignedIds] at hx
  | cons op rest ih =>
    intro s x hx
    cases op with
    | add =>
      rcases List.mem_cons.mp hx with hx | hx
      · omega
      · have h := ih (addCard s) x hx
        simp only [addCard] at h
        omega
    | delete i =>
      have h := ih (deleteCard s i) x hx
      simpa [deleteCard] using h

/-- C7: the id counter advances by one on every creation and deletion never
decrements or reuses it — along any sequence of create/remove operations
the created ids are strictly increasing; concretely, creating three cards,
deleting the second, then creating one more yields the ids `[1, 3, 4]`. -/
theorem cardId_monotone :
    (∀ (s : EditorState) (ops : List EditorOp),
        (assignedIds s ops).Pairwise (· < ·))
    ∧ (applyOps initState
        [.add, .add, .add, .delete 2, .add]).cards.map Card.id = [1, 3, 4] := by
  refine ⟨?_, by rfl⟩
  intro s ops
  induction ops generalizing s with
  | nil => exact .nil
  | cons op rest ih =>
    cases op with
    | add =>
      refine List.Pairwise.cons ?_ (ih (addCard s))
      intro x hx
      have h := lt_of_mem_assignedIds rest (addCard s) x hx
      simp only [addCard] at h
      omega
    | delete i => exact ih (deleteCard s i)

/-! ### Legacy array fields (`loadData`, `generateHTML`) -/

/-- C9: the array-of-lines and newline-joined-string views are equivalent —
`loadData` joins a stored array field with `"\n"` into the single-text
form, and `generateHTML` renders a card with array fields exactly as it
renders the card with the joined strings. -/
theorem legacy_format_equiv :
    (∀ (i : Nat) (ts rs : List String),
        loadNormalizeCard ⟨i, .arr ts, .arr rs⟩ = ⟨i, .str (joinNl ts), .str (joinNl rs)⟩)
    ∧ (∀ cards : List Card,
        generateHTML (cards.map loadNormalizeCard) = generateHTML cards) := by
  constructor
  · intro i ts rs; rfl
  · intro cards
    have hblock : ∀ c : Card, cardBlockChars (loadNormalizeCard c) = cardBlockChars c := by
      intro c
      have ht : textOf (loadNormalizeField c.title) = textOf c.title := by
        cases c.title <;> rfl
      have hr : textOf (loadNormalizeField c.rows) = textOf c.rows := by
        cases c.rows <;> rfl
      simp only [cardBlockChars, loadNormalizeCard, ht, hr]
    unfold generateHTML
    rw [List.map_map]
    have : cards.map (cardBlockChars ∘ loadNormalizeCard) = cards.map cardBlockChars :=
      List.map_congr_left fun c _ => hblock c
    rw [this]

/-! ### Escaping in the rendered document -/

set_option maxRecDepth 100000 in
/-- C1 evidence: `generateHTML` interpolates the card text verbatim.  For
the title `"a<b"` the rendered document contains the raw characters `a<b`
(so the `<b` opens a tag when the document is parsed) and does not contain
the escaped form `a&lt;b` anywhere, even though the repository's own
`escapeHtml` — used for the editor text areas — would produce exactly that
escaped form. -/
theorem render_unescaped :
    occursIn "a<b".toList (generateHTML [⟨1, .str "a<b", .str "x"⟩]).toList = true
    ∧ occursIn "a&lt;b".toList (generateHTML [⟨1, .str "a<b", .str "x"⟩]).toList = false
    ∧ escapeHtml "a<b" = "a&lt;b" :=
  ⟨by rfl, by rfl, by rfl⟩


/-! ### Extraction failure and id assignment -/

theorem trySelectors_eq_nil_iff (sels : List Selector) (f : HForest) :
    trySelectors sels f = [] ↔ ∀ sel ∈ sels, qsaForest sel f = [] := by
  induction sels with
  | nil => simp [trySelectors]
  | cons s rest ih =>
    by_cases hr : (qsaForest s f).isEmpty
    · have hnil : qsaForest s f = [] := List.isEmpty_iff.mp hr
      simp [trySelectors, hr, ih, hnil]
    · have hne : qsaForest s f ≠ [] := by
        intro h
        rw [h] at hr
        exact hr rfl
      simp [trySelectors, hr, hne]

theorem parseHTMLToCards_cases (doc : HForest) :
    parseHTMLToCards doc =
      if (qsaForest specCardSel doc).isEmpty then
        (if (trySelectors cardSelectors doc).isEmpty then .error noCardsMsg
         else .ok (processBlocks (trySelectors cardSelectors doc)))
      else .ok (processBlocks (qsaForest specCardSel doc)) := by
  by_cases h : (qsaForest specCardSel doc).isEmpty
  · simp only [parseHTMLToCards, h, ite_self, if_true]
  · simp only [parseHTMLToCards, h, ite_self, if_false, Bool.false_eq_true]

/-- C5: extraction fails with the `NoCardsFound` message exactly when the
whole fallback chain — the canonical `.spec-card` selector on the document
(and on the fragment re-parse, which queries the same nodes) and then every
generic card-container selector — matches no element; in particular the
document rendered from an empty card list extracts to that error. -/
theorem extract_noCardsFound :
    (∀ doc : HForest,
        parseHTMLToCards doc = .error noCardsMsg ↔
          (qsaForest specCardSel doc = [] ∧
           ∀ sel ∈ cardSelectors, qsaForest sel doc = []))
    ∧ parseHTMLToCards (renderedDoc []) = .error noCardsMsg := by
  refine ⟨?_, by rfl⟩
  intro doc
  rw [parseHTMLToCards_cases]
  by_cases h1 : (qsaForest specCardSel doc).isEmpty
  · have h1' : qsaForest specCardSel doc = [] := List.isEmpty_iff.mp h1
    rw [if_pos h1]
    by_cases h2 : (trySelectors cardSelectors doc).isEmpty
    · have h2' := (trySelectors_eq_nil_iff cardSelectors doc).mp (List.isEmpty_iff.mp h2)
      rw [if_pos h2]
      exact ⟨fun _ => ⟨h1', h2'⟩, fun _ => rfl⟩
    · have h2' : ¬∀ sel ∈ cardSelectors, qsaForest sel doc = [] := fun hall =>
        h2 (List.isEmpty_iff.mpr ((trySelectors_eq_nil_iff cardSelectors doc).mpr hall))
      rw [if_neg h2]
      exact ⟨fun h => absurd h (by simp), fun hconj => absurd hconj.2 h2'⟩
  · have h1' : qsaForest specCardSel doc ≠ [] := fun h =>
      h1 (List.isEmpty_iff.mpr h)
    rw [if_neg h1]
    exact ⟨fun h => absurd h (by simp), fun hconj => absurd hconj.1 h1'⟩

theorem processBlocks_foldl_invariant :
    ∀ (blocks : List HNode) (cs : List Card) (n : Nat),
      cs.map Card.id = List.range' 1 cs.length → n = cs.length →
      ((blocks.foldl
          (fun acc block =>
            match extractBlock block with
            | none => acc
            | some (t, rws) => (acc.1 ++ [⟨acc.2 + 1, .str t, .str rws⟩], acc.2 + 1))
          (cs, n)).1.map Card.id =
        List.range' 1 (blocks.foldl
          (fun acc block =>
            match extractBlock block with
            | none => acc
            | some (t, rws) => (acc.1 ++ [⟨acc.2 + 1, .str t, .str rws⟩], acc.2 + 1))
          (cs, n)).1.length) ∧
      (blocks.foldl
          (fun acc block =>
            match extractBlock block with
            | none => acc
            | some (t, rws) => (acc.1 ++ [⟨acc.2 + 1, .str t, .str rws⟩], acc.2 + 1))
          (cs, n)).2 =
        (blocks.foldl
          (fun acc block =>
            match extractBlock block with
            | none => acc
            | some (t, rws) => (acc.1 ++ [⟨acc.2 + 1, .str t, .str rws⟩], acc.2 + 1))
          (cs, n)).1.length := by
  intro blocks
  induction blocks with
  | nil => intro cs n h1 h2; exact ⟨h1, h2.symm ▸ rfl⟩
  | cons blk rest ih =>
    intro cs n h1 h2
    simp only [List.foldl_cons]
    rcases hblk : extractBlock blk with _ | tr
    · simp only [hblk]
      exact ih cs n h1 h2
    · rcases tr with ⟨t, rws⟩
      simp only [hblk]
      apply ih
      · subst h2
        simp [h1, List.range'_1_concat, Nat.add_comm]
      · simp [h2]

/-- C6: whenever extraction succeeds, the extracted cards carry fresh
sequential ids `1..N` in document order (the model carries no id-like
attributes from the source markup, so the ids cannot depend on them), and
the returned `maxId` equals the number of extracted cards. -/
theorem extract_ids_sequential (doc : HForest) (r : ParseResult)
    (h : parseHTMLToCards doc = .ok r) :
    r.cards.map Card.id = List.range' 1 r.cards.length ∧
      r.maxId = r.cards.length := by
  rw [parseHTMLToCards_cases] at h
  have hmain : ∀ blocks : List HNode,
      (processBlocks blocks).cards.map Card.id =
        List.range' 1 (processBlocks blocks).cards.length ∧
      (processBlocks blocks).maxId = (processBlocks blocks).cards.length := by
    intro blocks
    exact processBlocks_foldl_invariant blocks [] 0 (by simp) (by simp)
  by_cases h1 : (qsaForest specCardSel doc).isEmpty
  · rw [if_pos h1] at h
    by_cases h2 : (trySelectors cardSelectors doc).isEmpty
    · rw [if_pos h2] at h
      cases h
    · rw [if_neg h2] at h
      cases h
      exact hmain _
  · rw [if_neg h1] at h
    cases h
    exact hmain _

/-- Witness for `extract_ids_sequential`: extracting the rendered document
of one card yields id 1 and `maxId = 1`. -/
theorem extract_ids_sequential_witness :
    (ParseResult.mk [⟨1, .str "T", .str "R"⟩] 1).cards.map Card.id =
      List.range' 1 (ParseResult.mk [⟨1, .str "T", .str "R"⟩] 1).cards.length ∧
    (ParseResult.mk [⟨1, .str "T", .str "R"⟩] 1).maxId =
      (ParseResult.mk [⟨1, .str "T", .str "R"⟩] 1).cards.length :=
  extract_ids_sequential (renderedDoc [⟨7, .str "T", .str "R"⟩])
    (ParseResult.mk [⟨1, .str "T", .str "R"⟩] 1) (by rfl)

/-- Witness for `extract_noCardsFound`: an empty forest has no card blocks
at all, so extraction fails with the `NoCardsFound` message. -/
theorem extract_noCardsFound_witness :
    parseHTMLToCards HForest.nil = .error noCardsMsg :=
  (extract_noCardsFound.1 HForest.nil).mpr
    ⟨rfl, by intro sel hsel; fin_cases hsel <;> rfl⟩

/-! ### Whitespace and trimming lemmas -/

theorem dropWhile_append_all {p : Char → Bool} {a : List Char} (b : List Char)
    (h : ∀ c ∈ a, p c = true) : (a ++ b).dropWhile p = b.dropWhile p := by
  induction a with
  | nil => rfl
  | cons c a ih =>
    have hc := h c (by simp)
    simp only [List.cons_append, List.dropWhile_cons, hc, if_true]
    exact ih fun x hx => h x (by simp [hx])

theorem dropWhile_append_ne_nil {p : Char → Bool} {a : List Char} (b : List Char)
    (h : a.dropWhile p ≠ []) : (a ++ b).dropWhile p = a.dropWhile p ++ b := by
  induction a with
  | nil => simp [List.dropWhile] at h
  | cons c a ih =>
    by_cases hc : p c = true
    · simp only [List.dropWhile_cons, hc, if_true] at h ⊢
      simp only [List.cons_append, List.dropWhile_cons, hc, if_true]
      exact ih h
    · have hc' : p c = false := by
        cases hpc : p c
        · rfl
        · exact absurd hpc hc
      simp only [List.cons_append, List.dropWhile_cons, hc', Bool.false_eq_true, if_false]

theorem dropWhile_idem {p : Char → Bool} (l : List Char) :
    (l.dropWhile p).dropWhile p = l.dropWhile p := by
  induction l with
  | nil => rfl
  | cons c l ih =>
    by_cases hc : p c = true
    · simp only [List.dropWhile_cons, hc, if_true]
      exact ih
    · have hc' : p c = false := by
        cases hpc : p c
        · rfl
        · exact absurd hpc hc
      simp only [List.dropWhile_cons, hc', Bool.false_eq_true, if_false]

theorem trimStart_append_ws {w : List Char} (x : List Char)
    (h : ∀ c ∈ w, isWsChar c = true) : trimStart (w ++ x) = trimStart x :=
  dropWhile_append_all x h

theorem trimStart_append_stop {a : List Char} (b : List Char)
    (h : trimStart a ≠ []) : trimStart (a ++ b) = trimStart a ++ b :=
  dropWhile_append_ne_nil b h

theorem trimStart_idem (l : List Char) : trimStart (trimStart l) = trimStart l :=
  dropWhile_idem l

theorem trimEnd_append_ws {w : List Char} (x : List Char)
    (h : ∀ c ∈ w, isWsChar c = true) : trimEnd (x ++ w) = trimEnd x := by
  unfold trimEnd
  rw [List.reverse_append]
  rw [dropWhile_append_all x.reverse fun c hc => h c (List.mem_reverse.mp hc)]

theorem trimEnd_append_stop {b : List Char} (a : List Char)
    (h : trimEnd b ≠ []) : trimEnd (a ++ b) = a ++ trimEnd b := by
  have hrev : b.reverse.dropWhile isWsChar ≠ [] := by
    intro hnil
    apply h
    unfold trimEnd
    rw [hnil]
    rfl
  unfold trimEnd
  rw [List.reverse_append, dropWhile_append_ne_nil a.reverse hrev,
    List.reverse_append, List.reverse_reverse]

theorem trimEnd_eq_nil_iff (l : List Char) :
    trimEnd l = [] ↔ ∀ c ∈ l, isWsChar c = true := by
  unfold trimEnd
  rw [List.reverse_eq_nil_iff, List.dropWhile_eq_nil_iff]
  constructor
  · intro h c hc
    exact h c (List.mem_reverse.mpr hc)
  · intro h c hc
    exact h c (List.mem_reverse.mp hc)

theorem trimStart_eq_nil_iff (l : List Char) :
    trimStart l = [] ↔ ∀ c ∈ l, isWsChar c = true := List.dropWhile_eq_nil_iff

theorem jsTrim_ws_left {w : List Char} (x : List Char)
    (h : ∀ c ∈ w, isWsChar c = true) : jsTrim (w ++ x) = jsTrim x := by
  unfold jsTrim
  rw [trimStart_append_ws x h]

theorem jsTrim_ws_suffix {w : List Char} (x : List Char)
    (h : ∀ c ∈ w, isWsChar c = true) : jsTrim (x ++ w) = jsTrim x := by
  by_cases hx : trimStart x = []
  · have hxw : ∀ c ∈ x, isWsChar c = true := (trimStart_eq_nil_iff x).mp hx
    have h1 : trimStart (x ++ w) = [] := by
      rw [(trimStart_eq_nil_iff _)]
      intro c hc
      rcases List.mem_append.mp hc with hc | hc
      · exact hxw c hc
      · exact h c hc
    unfold jsTrim
    rw [h1, hx]
  · unfold jsTrim
    rw [trimStart_append_stop w hx, trimEnd_append_ws (trimStart x) h]

theorem jsTrim_trimStart (l : List Char) : jsTrim (trimStart l) = jsTrim l := by
  unfold jsTrim
  rw [trimStart_idem]

theorem exists_ws_suffix (l : List Char) :
    ∃ w, l = trimEnd l ++ w ∧ ∀ c ∈ w, isWsChar c = true := by
  refine ⟨(l.reverse.takeWhile isWsChar).reverse, ?_, ?_⟩
  · unfold trimEnd
    conv_lhs => rw [← l.reverse_reverse]
    rw [← List.reverse_append, List.takeWhile_append_dropWhile]
  · intro c hc
    exact List.mem_takeWhile_imp (List.mem_reverse.mp hc)

theorem jsTrim_trimEnd (l : List Char) : jsTrim (trimEnd l) = jsTrim l := by
  obtain ⟨w, hw, hws⟩ := exists_ws_suffix l
  conv_rhs => rw [hw]
  rw [jsTrim_ws_suffix (trimEnd l) hws]

theorem trimStart_ne_nil_of_jsTrim {l : List Char} (h : jsTrim l ≠ []) :
    trimStart l ≠ [] := by
  intro he
  apply h
  unfold jsTrim
  rw [he]
  rfl

theorem trimEnd_ne_nil_of_jsTrim {l : List Char} (h : jsTrim l ≠ []) :
    trimEnd l ≠ [] := by
  intro he
  apply h
  rw [← jsTrim_trimEnd l, he]
  rfl

theorem mem_trimStart {c : Char} {l : List Char} (h : c ∈ trimStart l) : c ∈ l :=
  List.dropWhile_subset isWsChar h

theorem mem_trimEnd {c : Char} {l : List Char} (h : c ∈ trimEnd l) : c ∈ l := by
  unfold trimEnd at h
  have h1 : c ∈ l.reverse.dropWhile isWsChar := List.mem_reverse.mp h
  exact List.mem_reverse.mp (List.dropWhile_subset isWsChar h1)

theorem mem_jsTrim {c : Char} {l : List Char} (h : c ∈ jsTrim l) : c ∈ l :=
  mem_trimStart (mem_trimEnd h)

/-! ### Lemmas about the `<br>` regex split -/

theorem brClose_length {l r : List Char} (h : brClose l = some r) :
    r.length + 1 = l.length := by
  cases l with
  | nil => simp [brClose] at h
  | cons c rest =>
    by_cases hc : c = '>'
    · simp only [brClose, hc, if_pos] at h
      cases h
      simp
    · simp [brClose, hc] at h

theorem brAfterWs_length {l r : List Char} (h : brAfterWs l = some r) :
    r.length + 1 ≤ l.length := by
  cases l with
  | nil => simp [brAfterWs] at h
  | cons c rest =>
    by_cases hc : c = '/'
    · simp only [brAfterWs, hc, if_pos] at h
      have := brClose_length h
      simp only [List.length_cons]
      omega
    · simp only [brAfterWs, hc, if_neg, if_false] at h
      have := brClose_length h
      omega

theorem brMatch_length {l r : List Char} (h : brMatch l = some r) :
    r.length + 4 ≤ l.length := by
  cases l with
  | nil => simp [brMatch] at h
  | cons c0 l1 =>
    cases l1 with
    | nil => simp [brMatch] at h
    | cons c1 l2 =>
      cases l2 with
      | nil => simp [brMatch] at h
      | cons c2 rest =>
        simp only [brMatch] at h
        split at h
        · have h1 := brAfterWs_length h
          have h2 : (rest.dropWhile isWsChar).length ≤ rest.length :=
            (List.dropWhile_sublist isWsChar).length_le
          simp only [List.length_cons]
          omega
        · cases h

theorem splitBrF_congr : ∀ (f g : Nat) (l : List Char),
    l.length ≤ f → l.length ≤ g → splitBrF f l = splitBrF g l := by
  intro f
  induction f with
  | zero =>
    intro g l hf _
    have hl : l = [] := List.eq_nil_of_length_eq_zero (Nat.le_zero.mp hf)
    subst hl
    cases g <;> rfl
  | succ f ih =>
    intro g l hf hg
    cases l with
    | nil => cases g <;> rfl
    | cons c rest =>
      cases g with
      | zero => simp at hg
      | succ g' =>
        cases hbm : brMatch (c :: rest) with
        | none =>
          have hr : rest.length ≤ f := by
            simp only [List.length_cons] at hf
            omega
          have hr' : rest.length ≤ g' := by
            simp only [List.length_cons] at hg
            omega
          simp only [splitBrF, hbm]
          rw [ih g' rest hr hr']
        | some r =>
          have hlen := brMatch_length hbm
          simp only [List.length_cons] at hf hg hlen
          simp only [splitBrF, hbm]
          rw [ih g' r (by omega) (by omega)]

theorem splitBrF_ne_nil : ∀ (f : Nat) (l : List Char), splitBrF f l ≠ [] := by
  intro f l
  cases l with
  | nil => cases f <;> simp [splitBrF]
  | cons c rest =>
    cases f with
    | zero => simp [splitBrF]
    | succ f =>
      simp only [splitBrF]
      cases brMatch (c :: rest) with
      | none =>
        cases splitBrF f rest <;> simp
      | some r => simp

theorem splitBr_ne_nil (l : List Char) : splitBr l ≠ [] :=
  splitBrF_ne_nil l.length l

theorem splitBr_cons_ne {c : Char} {l : List Char} (h : brMatch (c :: l) = none) :
    splitBr (c :: l) =
      match splitBr l with
      | [] => [[]]
      | s :: ss => (c :: s) :: ss := by
  unfold splitBr
  simp only [List.length_cons, splitBrF, h]

theorem splitBr_matched {l r : List Char} (h : brMatch l = some r) :
    splitBr l = [] :: splitBr r := by
  cases l with
  | nil => simp [brMatch] at h
  | cons c rest =>
    have hlen := brMatch_length h
    simp only [List.length_cons] at hlen
    unfold splitBr
    simp only [List.length_cons, splitBrF, h]
    rw [splitBrF_congr rest.length r.length r (by omega) (Nat.le_refl _)]

theorem brMatch_cons_ne {c : Char} (h : c ≠ '<') (l : List Char) :
    brMatch (c :: l) = none := by
  cases l with
  | nil => rfl
  | cons c1 r1 =>
    cases r1 with
    | nil => rfl
    | cons c2 r2 =>
      simp [brMatch, h]

theorem brMatch_br (rest : List Char) :
    brMatch ('<' :: 'b' :: 'r' :: '>' :: rest) = some rest := by rfl

theorem splitBr_append_seg {xs y : List Char} (hxs : ∀ c ∈ xs, c ≠ '<')
    {s : List Char} {ss : List (List Char)} (hy : splitBr y = s :: ss) :
    splitBr (xs ++ y) = (xs ++ s) :: ss := by
  induction xs with
  | nil => simpa using hy
  | cons c xs ih =>
    have hc : c ≠ '<' := hxs c (by simp)
    have hbm : brMatch (c :: (xs ++ y)) = none := brMatch_cons_ne hc _
    rw [List.cons_append, splitBr_cons_ne hbm,
      ih fun d hd => hxs d (by simp [hd])]
    simp

theorem splitBr_safe {xs : List Char} (hxs : ∀ c ∈ xs, c ≠ '<') :
    splitBr xs = [xs] := by
  have hnil : splitBr ([] : List Char) = [] :: [] := rfl
  have h := splitBr_append_seg hxs hnil
  simpa using h

theorem splitBr_br_head {xs rest : List Char} (hxs : ∀ c ∈ xs, c ≠ '<') :
    splitBr (xs ++ '<' :: 'b' :: 'r' :: '>' :: rest) = xs :: splitBr rest := by
  have h := splitBr_append_seg hxs (splitBr_matched (brMatch_br rest))
  simpa using h

/-! ### The extractor's row chain on serialized regions -/

theorem isEmpty_false_of_ne_nil {α : Type} {l : List α} (h : l ≠ []) :
    l.isEmpty = false := by
  cases hl : l.isEmpty
  · rfl
  · exact absurd (List.isEmpty_iff.mp hl) h

theorem safeChar_ne_lt {c : Char} (h : safeChar c = true) : c ≠ '<' := by
  intro he
  subst he
  simp [safeChar] at h

theorem wsChar_ne_lt {c : Char} (h : isWsChar c = true) : c ≠ '<' := by
  intro he
  subst he
  simp [isWsChar] at h

theorem exists_nonWs_of_jsTrim {l : List Char} (h : jsTrim l ≠ []) :
    ∃ c ∈ l, isWsChar c = false := by
  have h1 : trimEnd l ≠ [] := trimEnd_ne_nil_of_jsTrim h
  by_contra hall
  push_neg at hall
  exact h1 ((trimEnd_eq_nil_iff l).mpr fun c hc => by
    have := hall c hc
    cases hws : isWsChar c
    · exact absurd hws this
    · rfl)

theorem trimEnd_ne_nil_of_mem {l : List Char}
    (h : ∃ c ∈ l, isWsChar c = false) : trimEnd l ≠ [] := by
  intro he
  obtain ⟨c, hc, hf⟩ := h
  rw [(trimEnd_eq_nil_iff l).mp he c hc] at hf
  cases hf

theorem chainCore (w post : List Char) (hw : ∀ c ∈ w, isWsChar c = true)
    (hpost : ∀ c ∈ post, isWsChar c = true) :
    ∀ (rest : List (List Char)) (l1 : List Char),
      (∀ c ∈ l1, safeChar c = true) → jsTrim l1 ≠ [] →
      (∀ l ∈ rest, (∀ c ∈ l, safeChar c = true) ∧ jsTrim l ≠ []) →
      ((splitBr (trimEnd (l1 ++ (brFlat w rest ++ post)))).map jsTrim).filter
        (fun r => !r.isEmpty) = (l1 :: rest).map jsTrim := by
  intro rest
  induction rest with
  | nil =>
    intro l1 hsafe hkept _
    simp only [brFlat, List.nil_append]
    rw [trimEnd_append_ws l1 hpost]
    rw [splitBr_safe fun c hc => safeChar_ne_lt (hsafe c (mem_trimEnd hc))]
    simp only [List.map_cons, List.map_nil, jsTrim_trimEnd]
    rw [List.filter_cons_of_pos (by simpa using isEmpty_false_of_ne_nil hkept)]
    rfl
  | cons l2 rest ih =>
    intro l1 hsafe hkept hrest
    have hl2 := hrest l2 (by simp)
    have hrest' : ∀ l ∈ rest, (∀ c ∈ l, safeChar c = true) ∧ jsTrim l ≠ [] :=
      fun l hl => hrest l (by simp [hl])
    -- the tail after the separator contains the non-whitespace of l2
    obtain ⟨cnw, hcnw, hcnwf⟩ := exists_nonWs_of_jsTrim hl2.2
    have hY : trimEnd (l2 ++ (brFlat w rest ++ post)) ≠ [] :=
      trimEnd_ne_nil_of_mem ⟨cnw, by simp [hcnw], hcnwf⟩
    have hwY : trimEnd (w ++ (l2 ++ (brFlat w rest ++ post))) =
        w ++ trimEnd (l2 ++ (brFlat w rest ++ post)) :=
      trimEnd_append_stop w hY
    have hsplit : brFlat w (l2 :: rest) ++ post =
        '<' :: 'b' :: 'r' :: '>' :: (w ++ (l2 ++ (brFlat w rest ++ post))) := by
      simp [brFlat]
    rw [hsplit]
    have hbig : trimEnd (l1 ++ '<' :: 'b' :: 'r' :: '>' ::
        (w ++ (l2 ++ (brFlat w rest ++ post)))) =
        l1 ++ '<' :: 'b' :: 'r' :: '>' ::
          (w ++ trimEnd (l2 ++ (brFlat w rest ++ post))) := by
      have h1 : trimEnd ('<' :: 'b' :: 'r' :: '>' ::
          (w ++ (l2 ++ (brFlat w rest ++ post)))) =
          '<' :: 'b' :: 'r' :: '>' ::
            (w ++ trimEnd (l2 ++ (brFlat w rest ++ post))) := by
        have h2 : trimEnd (('<' :: 'b' :: 'r' :: '>' :: w) ++
            (l2 ++ (brFlat w rest ++ post))) =
            ('<' :: 'b' :: 'r' :: '>' :: w) ++
              trimEnd (l2 ++ (brFlat w rest ++ post)) :=
          trimEnd_append_stop _ hY
        simpa using h2
      have h3 := trimEnd_append_stop l1 (b := '<' :: 'b' :: 'r' :: '>' ::
          (w ++ (l2 ++ (brFlat w rest ++ post)))) (by
        rw [h1]
        simp)
      rw [h3, h1]
    rw [hbig]
    have hsafe1 : ∀ c ∈ l1, c ≠ '<' := fun c hc => safeChar_ne_lt (hsafe c hc)
    rw [splitBr_br_head hsafe1]
    obtain ⟨s, ss, hsss⟩ : ∃ s ss,
        splitBr (trimEnd (l2 ++ (brFlat w rest ++ post))) = s :: ss := by
      rcases hsp : splitBr (trimEnd (l2 ++ (brFlat w rest ++ post))) with _ | ⟨s, ss⟩
      · exact absurd hsp (splitBr_ne_nil _)
      · exact ⟨s, ss, rfl⟩
    have hwsafe : ∀ c ∈ w, c ≠ '<' := fun c hc => wsChar_ne_lt (hw c hc)
    rw [splitBr_append_seg hwsafe hsss]
    have hihres := ih l2 hl2.1 hl2.2 hrest'
    rw [hsss] at hihres
    simp only [List.map_cons] at hihres ⊢
    rw [jsTrim_ws_left s hw,
      List.filter_cons_of_pos (by simpa using isEmpty_false_of_ne_nil hkept),
      hihres]

theorem chain_region (w pre post : List Char)
    (hw : ∀ c ∈ w, isWsChar c = true) (hpre : ∀ c ∈ pre, isWsChar c = true)
    (hpost : ∀ c ∈ post, isWsChar c = true)
    (l1 : List Char) (rest : List (List Char))
    (hsafe1 : ∀ c ∈ l1, safeChar c = true) (hkept1 : jsTrim l1 ≠ [])
    (hrest : ∀ l ∈ rest, (∀ c ∈ l, safeChar c = true) ∧ jsTrim l ≠ []) :
    ((splitBr (jsTrim (pre ++ (l1 ++ (brFlat w rest ++ post))))).map jsTrim).filter
      (fun r => !r.isEmpty) = (l1 :: rest).map jsTrim := by
  rw [jsTrim_ws_left _ hpre]
  have hts : trimStart (l1 ++ (brFlat w rest ++ post)) =
      trimStart l1 ++ (brFlat w rest ++ post) :=
    trimStart_append_stop _ (trimStart_ne_nil_of_jsTrim hkept1)
  show ((splitBr (trimEnd (trimStart (l1 ++ (brFlat w rest ++ post))))).map
      jsTrim).filter (fun r => !r.isEmpty) = (l1 :: rest).map jsTrim
  rw [hts]
  have h := chainCore w post hw hpost rest (trimStart l1)
    (fun c hc => hsafe1 c (mem_trimStart hc))
    (by rw [jsTrim_trimStart]; exact hkept1) hrest
  rw [h]
  simp only [List.map_cons, jsTrim_trimStart]

theorem chain_ws (x : List Char) (hx : ∀ c ∈ x, isWsChar c = true) :
    ((splitBr (jsTrim x)).map jsTrim).filter (fun r => !r.isEmpty) = [] := by
  have h1 : jsTrim x = [] := by
    unfold jsTrim
    rw [(trimStart_eq_nil_iff x).mpr hx]
    rfl
  rw [h1]
  rfl

/-! ### Serialization of the rendered header and content regions -/

theorem escapeChars_append (a b : List Char) :
    escapeChars (a ++ b) = escapeChars a ++ escapeChars b := by
  induction a with
  | nil => rfl
  | cons c a ih => simp [escapeChars, ih]

theorem escapeChars_safe {l : List Char} (h : ∀ c ∈ l, safeChar c = true) :
    escapeChars l = l := by
  induction l with
  | nil => rfl
  | cons c rest ih =>
    have hc := h c (by simp)
    have h1 : c ≠ '&' := by
      intro he
      subst he
      simp [safeChar] at hc
    have h2 : c ≠ '<' := by
      intro he
      subst he
      simp [safeChar] at hc
    have h3 : c ≠ '>' := by
      intro he
      subst he
      simp [safeChar] at hc
    simp [escapeChars, escapeChar, h1, h2, h3, ih fun d hd => h d (by simp [hd])]

theorem escapeChars_ws {l : List Char} (h : ∀ c ∈ l, isWsChar c = true) :
    escapeChars l = l := by
  apply escapeChars_safe
  intro c hc
  have hw := h c hc
  simp only [isWsChar, Bool.or_eq_true, decide_eq_true_eq] at hw
  rcases hw with ((h1 | h1) | h1) | h1 <;> subst h1 <;> decide

theorem wsIndent4 : ∀ c ∈ "\n    ".toList, isWsChar c = true := by decide

theorem wsIndent6 : ∀ c ∈ "\n      ".toList, isWsChar c = true := by decide

theorem serialize_headerForestAux {rest : List (List Char)}
    (h : ∀ l ∈ rest, ∀ c ∈ l, safeChar c = true) :
    forestSerialize (headerForestAux rest) = brFlat "\n    ".toList rest := by
  induction rest with
  | nil => rfl
  | cons l r ih =>
    simp only [headerForestAux, forestSerialize, brFlat]
    have hser : nodeSerialize brNode = "<br>".toList := rfl
    rw [hser]
    have htxt : nodeSerialize (.text (String.mk ("\n    ".toList ++ l))) =
        "\n    ".toList ++ l := by
      show escapeChars (String.mk ("\n    ".toList ++ l)).toList = _
      show escapeChars ("\n    ".toList ++ l) = _
      rw [escapeChars_append, escapeChars_ws wsIndent4,
        escapeChars_safe (h l (by simp))]
    rw [htxt, ih fun l' hl' => h l' (by simp [hl'])]
    simp

theorem serialize_headerForest {l1 : List Char} {rest : List (List Char)}
    (h1 : ∀ c ∈ l1, safeChar c = true)
    (h : ∀ l ∈ rest, ∀ c ∈ l, safeChar c = true) :
    forestSerialize (headerForest (l1 :: rest)) = l1 ++ brFlat "\n    ".toList rest := by
  simp only [headerForest, forestSerialize]
  have htxt : nodeSerialize (.text (String.mk l1)) = l1 := by
    show escapeChars (String.mk l1).toList = l1
    show escapeChars l1 = l1
    exact escapeChars_safe h1
  rw [htxt, serialize_headerForestAux h]

theorem serialize_contentForestAux {rest : List (List Char)}
    (h : ∀ l ∈ rest, ∀ c ∈ l, safeChar c = true) :
    forestSerialize (contentForestAux rest) =
      brFlat "\n      ".toList rest ++
        (if rest.isEmpty then [] else "\n    ".toList) := by
  induction rest with
  | nil => rfl
  | cons l r ih =>
    simp only [contentForestAux, forestSerialize, brFlat]
    have hser : nodeSerialize brNode = "<br>".toList := rfl
    rw [hser]
    have htxt : nodeSerialize (.text (String.mk ("\n      ".toList ++ l
        ++ (if r.isEmpty then "\n    ".toList else [])))) =
        "\n      ".toList ++ l ++ (if r.isEmpty then "\n    ".toList else []) := by
      show escapeChars ("\n      ".toList ++ l
        ++ (if r.isEmpty then "\n    ".toList else [])) = _
      rw [escapeChars_append, escapeChars_append, escapeChars_ws wsIndent6,
        escapeChars_safe (h l (by simp))]
      congr 1
      split
      · exact escapeChars_ws wsIndent4
      · rfl
    rw [htxt, ih fun l' hl' => h l' (by simp [hl'])]
    cases r <;> simp [brFlat]

theorem serialize_contentForest {l1 : List Char} {rest : List (List Char)}
    (h1 : ∀ c ∈ l1, safeChar c = true)
    (h : ∀ l ∈ rest, ∀ c ∈ l, safeChar c = true) :
    forestSerialize (contentForest (l1 :: rest)) =
      "\n      ".toList ++ (l1 ++ (brFlat "\n      ".toList rest ++ "\n    ".toList)) := by
  simp only [contentForest, forestSerialize]
  have htxt : nodeSerialize (.text (String.mk ("\n      ".toList ++ l1
      ++ (if rest.isEmpty then "\n    ".toList else [])))) =
      "\n      ".toList ++ l1 ++ (if rest.isEmpty then "\n    ".toList else []) := by
    show escapeChars ("\n      ".toList ++ l1
      ++ (if rest.isEmpty then "\n    ".toList else [])) = _
    rw [escapeChars_append, escapeChars_append, escapeChars_ws wsIndent6,
      escapeChars_safe h1]
    congr 1
    split
    · exact escapeChars_ws wsIndent4
    · rfl
  rw [htxt, serialize_contentForestAux h]
  cases rest <;> simp [brFlat]

theorem serialize_contentForest_nil :
    forestSerialize (contentForest []) = "\n      \n    ".toList := by
  simp only [contentForest, forestSerialize]
  show escapeChars "\n      \n    ".toList ++ [] = _
  rw [escapeChars_ws (by decide)]
  simp

/-! ### Selector queries on the rendered tree -/

theorem hasClass_empty (nm : String) : hasClass "" nm = false := by
  rfl

theorem qsa_cls_headerForestAux (nm : String) (rest : List (List Char)) :
    qsaForest (.cls nm) (headerForestAux rest) = [] := by
  induction rest with
  | nil => rfl
  | cons l r ih =>
    simp [headerForestAux, qsaForest, qsaNode, brNode, selMatches, hasClass_empty, ih]

theorem qsa_cls_headerForest (nm : String) (lines : List (List Char)) :
    qsaForest (.cls nm) (headerForest lines) = [] := by
  cases lines with
  | nil => rfl
  | cons l rest =>
    simp [headerForest, qsaForest, qsaNode, qsa_cls_headerForestAux]

theorem qsa_cls_contentForestAux (nm : String) (rest : List (List Char)) :
    qsaForest (.cls nm) (contentForestAux rest) = [] := by
  induction rest with
  | nil => rfl
  | cons l r ih =>
    simp [contentForestAux, qsaForest, qsaNode, brNode, selMatches, hasClass_empty, ih]

theorem qsa_cls_contentForest (nm : String) (lines : List (List Char)) :
    qsaForest (.cls nm) (contentForest lines) = [] := by
  cases lines with
  | nil => rfl
  | cons l rest =>
    simp [contentForest, qsaForest, qsaNode, qsa_cls_contentForestAux]

theorem qsaForest_cons (sel : Selector) (n : HNode) (t : HForest) :
    qsaForest sel (.cons n t) = qsaNode sel n ++ qsaForest sel t := by
  simp [qsaForest]

theorem qsaForest_nil (sel : Selector) : qsaForest sel .nil = [] := by
  simp [qsaForest]

theorem qsaNode_text (sel : Selector) (s : String) : qsaNode sel (.text s) = [] := by
  simp [qsaNode]

theorem qsaNode_elem (sel : Selector) (t cl : String) (ch : HForest) :
    qsaNode sel (.elem t cl ch) =
      (if selMatches sel t cl then [HNode.elem t cl ch] else []) ++ qsaForest sel ch := by
  simp [qsaNode]

theorem spec_card_classes :
    hasClass "spec-card" "spec-card" = true ∧
    hasClass "spec-header" "spec-card" = false ∧
    hasClass "spec-content" "spec-card" = false ∧
    hasClass "spec-card" "spec-header" = false ∧
    hasClass "spec-header" "spec-header" = true ∧
    hasClass "spec-content" "spec-header" = false ∧
    hasClass "spec-card" "spec-content" = false ∧
    hasClass "spec-header" "spec-content" = false ∧
    hasClass "spec-content" "spec-content" = true := by
  decide

theorem qsaNode_card_specCard (c : Card) :
    qsaNode specCardSel (renderedCardNode c) = [renderedCardNode c] := by
  simp only [renderedCardNode, qsaNode_elem, qsaForest_cons, qsaForest_nil,
    qsaNode_text, selMatches, specCardSel, qsa_cls_headerForest,
    qsa_cls_contentForest, spec_card_classes.1, spec_card_classes.2.1,
    spec_card_classes.2.2.1, if_true, if_false, Bool.false_eq_true]
  simp

theorem qsa_specCard_containerRest (cards : List Card) :
    qsaForest specCardSel (containerRest cards) = cards.map renderedCardNode := by
  induction cards with
  | nil =>
    simp [containerRest, qsaForest_cons, qsaForest_nil, qsaNode_text]
  | cons c rest ih =>
    simp [containerRest, qsaForest_cons, qsaNode_text, qsaNode_card_specCard, ih]

theorem qsa_specCard_containerChildren (cards : List Card) :
    qsaForest specCardSel (containerChildren cards) = cards.map renderedCardNode := by
  cases cards with
  | nil => simp [containerChildren, qsaForest_cons, qsaForest_nil, qsaNode_text]
  | cons c rest =>
    simp [containerChildren, qsaForest_cons, qsaNode_text, qsaNode_card_specCard,
      qsa_specCard_containerRest]

theorem qsa_specCard_renderedDoc (cards : List Card) :
    qsaForest specCardSel (renderedDoc cards) = cards.map renderedCardNode := by
  simp only [renderedDoc, qsaForest_cons, qsaForest_nil, qsaNode_text,
    qsaNode_elem, selMatches, specCardSel, hasClass_empty,
    show hasClass "specs-container" "spec-card" = false from by decide,
    Bool.false_eq_true, if_false]
  simp only [List.nil_append, List.append_nil]
  exact qsa_specCard_containerChildren cards

theorem qsel_card_header (c : Card) :
    qsel (.cls "spec-header") (renderedCardNode c) =
      some (.elem "div" "spec-header" (headerForest (keptLines (textOf c.title)))) := by
  simp only [renderedCardNode, qsel, qsaForest_cons, qsaForest_nil, qsaNode_text,
    qsaNode_elem, selMatches, qsa_cls_headerForest, qsa_cls_contentForest,
    spec_card_classes.2.2.2.1, spec_card_classes.2.2.2.2.1,
    spec_card_classes.2.2.2.2.2.1, Bool.false_eq_true, if_false, if_true]
  simp

theorem qsel_card_content (c : Card) :
    qsel (.cls "spec-content") (renderedCardNode c) =
      some (.elem "div" "spec-content" (contentForest (keptLines (textOf c.rows)))) := by
  simp only [renderedCardNode, qsel, qsaForest_cons, qsaForest_nil, qsaNode_text,
    qsaNode_elem, selMatches, qsa_cls_headerForest, qsa_cls_contentForest,
    spec_card_classes.2.2.2.2.2.2.1, spec_card_classes.2.2.2.2.2.2.2.1,
    spec_card_classes.2.2.2.2.2.2.2.2, Bool.false_eq_true, if_false, if_true]
  simp

/-! ### The extractor on a rendered card block -/

theorem innerHTML_elem (t cl : String) (ch : HForest) :
    innerHTML (.elem t cl ch) = forestSerialize ch := rfl

theorem resolve_rendered (c : Card) :
    resolveHeaderContent (renderedCardNode c) =
      some (.elem "div" "spec-header" (headerForest (keptLines (textOf c.title))),
            .elem "div" "spec-content" (contentForest (keptLines (textOf c.rows)))) := by
  unfold resolveHeaderContent
  rw [qsel_card_header, qsel_card_content]
  simp

theorem splitNl_ne_nil (x : List Char) : splitNl x ≠ [] := by
  cases x with
  | nil => simp [splitNl]
  | cons c rest =>
    simp only [splitNl]
    rcases splitNl rest with _ | ⟨s, ss⟩
    · simp
    · by_cases h : c = '\n' <;> simp [h]

theorem mem_of_mem_splitNl :
    ∀ {x l : List Char}, l ∈ splitNl x → ∀ {c : Char}, c ∈ l → c ∈ x := by
  intro x
  induction x with
  | nil =>
    intro l hl c hc
    simp [splitNl] at hl
    subst hl
    simp at hc
  | cons a rest ih =>
    intro l hl c hc
    rcases hsp : splitNl rest with _ | ⟨s, ss⟩
    · exact absurd hsp (splitNl_ne_nil rest)
    · simp only [splitNl, hsp] at hl
      by_cases ha : a = '\n'
      · rw [if_pos ha] at hl
        rcases List.mem_cons.mp hl with hl | hl
        · subst hl
          simp at hc
        · have hmem : l ∈ splitNl rest := by rw [hsp]; exact hl
          exact List.mem_cons.mpr (Or.inr (ih hmem hc))
      · rw [if_neg ha] at hl
        rcases List.mem_cons.mp hl with hl | hl
        · subst hl
          rcases List.mem_cons.mp hc with hc | hc
          · exact List.mem_cons.mpr (Or.inl hc)
          · have hs : s ∈ splitNl rest := by rw [hsp]; exact List.mem_cons.mpr (Or.inl rfl)
            exact List.mem_cons.mpr (Or.inr (ih hs hc))
        · have hmem : l ∈ splitNl rest := by
            rw [hsp]
            exact List.mem_cons.mpr (Or.inr hl)
          exact List.mem_cons.mpr (Or.inr (ih hmem hc))

theorem keptLines_props {s : String} (hs : s.toList.all safeChar = true) :
    ∀ l ∈ keptLines s, (∀ c ∈ l, safeChar c = true) ∧ jsTrim l ≠ [] := by
  intro l hl
  constructor
  · intro c hc
    have hmem : l ∈ splitNl s.toList := List.mem_of_mem_filter hl
    exact List.all_eq_true.mp hs c (mem_of_mem_splitNl hmem hc)
  · have hp := List.of_mem_filter hl
    intro he
    rw [he] at hp
    simp at hp

theorem chain_header (l1 : List Char) (rest : List (List Char))
    (h1 : (∀ c ∈ l1, safeChar c = true) ∧ jsTrim l1 ≠ [])
    (h : ∀ l ∈ rest, (∀ c ∈ l, safeChar c = true) ∧ jsTrim l ≠ []) :
    ((splitBr (jsTrim (l1 ++ brFlat "\n    ".toList rest))).map jsTrim).filter
      (fun r => !r.isEmpty) = (l1 :: rest).map jsTrim := by
  have hr := chain_region "\n    ".toList [] [] wsIndent4 (by simp) (by simp)
    l1 rest h1.1 h1.2 h
  simpa using hr

theorem chain_content (l1 : List Char) (rest : List (List Char))
    (h1 : (∀ c ∈ l1, safeChar c = true) ∧ jsTrim l1 ≠ [])
    (h : ∀ l ∈ rest, (∀ c ∈ l, safeChar c = true) ∧ jsTrim l ≠ []) :
    ((splitBr (jsTrim ("\n      ".toList ++
        (l1 ++ (brFlat "\n      ".toList rest ++ "\n    ".toList))))).map jsTrim).filter
      (fun r => !r.isEmpty) = (l1 :: rest).map jsTrim :=
  chain_region "\n      ".toList "\n      ".toList "\n    ".toList
    wsIndent6 wsIndent6 wsIndent4 l1 rest h1.1 h1.2 h

theorem extractBlock_rendered (c : Card)
    (hsafe : canonicalSafeCard c = true)
    (htitle : keptLines (textOf c.title) ≠ []) :
    extractBlock (renderedCardNode c) =
      some (specNormalize (textOf c.title), specNormalize (textOf c.rows)) := by
  have hsafeT : (textOf c.title).toList.all safeChar = true :=
    (Bool.and_eq_true_iff.mp hsafe).1
  have hsafeR : (textOf c.rows).toList.all safeChar = true :=
    (Bool.and_eq_true_iff.mp hsafe).2
  unfold extractBlock
  rw [resolve_rendered]
  have hT : ((splitBr (jsTrim (innerHTML (.elem "div" "spec-header"
      (headerForest (keptLines (textOf c.title))))))).map jsTrim).filter
      (fun r => !r.isEmpty) = (keptLines (textOf c.title)).map jsTrim := by
    rcases hkt : keptLines (textOf c.title) with _ | ⟨l1, rest⟩
    · exact absurd hkt htitle
    · have hprops := keptLines_props hsafeT
      rw [hkt] at hprops
      rw [innerHTML_elem, serialize_headerForest
        (fun d hd => (hprops l1 (by simp)).1 d hd)
        (fun l hl d hd => (hprops l (by simp [hl])).1 d hd)]
      exact chain_header l1 rest (hprops l1 (by simp))
        fun l hl => hprops l (by simp [hl])
  have hR : ((splitBr (jsTrim (innerHTML (.elem "div" "spec-content"
      (contentForest (keptLines (textOf c.rows))))))).map jsTrim).filter
      (fun r => !r.isEmpty) = (keptLines (textOf c.rows)).map jsTrim := by
    rcases hkr : keptLines (textOf c.rows) with _ | ⟨l1, rest⟩
    · rw [innerHTML_elem, serialize_contentForest_nil]
      rw [chain_ws _ (by decide)]
      rfl
    · have hprops := keptLines_props hsafeR
      rw [hkr] at hprops
      rw [innerHTML_elem, serialize_contentForest
        (fun d hd => (hprops l1 (by simp)).1 d hd)
        (fun l hl d hd => (hprops l (by simp [hl])).1 d hd)]
      exact chain_content l1 rest (hprops l1 (by simp))
        fun l hl => hprops l (by simp [hl])
  simp only [hT, hR]
  have htne : (keptLines (textOf c.title)).map jsTrim ≠ [] := by
    rcases hkt : keptLines (textOf c.title) with _ | ⟨l1, rest⟩
    · exact absurd hkt htitle
    · simp
  rw [if_neg (by simpa using isEmpty_false_of_ne_nil htne)]
  rcases hkr : keptLines (textOf c.rows) with _ | ⟨l1, rest⟩
  · simp only [List.map_nil, List.isEmpty_nil, if_pos]
    unfold specNormalize
    rw [hkr]
    rfl
  · rw [if_neg (by simp)]
    unfold specNormalize
    rw [hkr]

theorem processBlocks_rendered (cards : List Card)
    (h : ∀ c ∈ cards, canonicalSafeCard c = true ∧ keptLines (textOf c.title) ≠ []) :
    processBlocks (cards.map renderedCardNode) =
      ⟨roundtripCards 0 cards, cards.length⟩ := by
  have hfold : ∀ (cards' : List Card) (cs : List Card) (n : Nat),
      (∀ c ∈ cards', canonicalSafeCard c = true ∧ keptLines (textOf c.title) ≠ []) →
      ((cards'.map renderedCardNode).foldl
        (fun acc block =>
          match extractBlock block with
          | none => acc
          | some (t, rws) => (acc.1 ++ [⟨acc.2 + 1, .str t, .str rws⟩], acc.2 + 1))
        (cs, n)) = (cs ++ roundtripCards n cards', n + cards'.length) := by
    intro cards'
    induction cards' with
    | nil => intro cs n _; simp [roundtripCards]
    | cons c rest ih =>
      intro cs n hall
      have hc := hall c (by simp)
      simp only [List.map_cons, List.foldl_cons,
        extractBlock_rendered c hc.1 hc.2]
      rw [ih _ _ fun d hd => hall d (by simp [hd])]
      simp [roundtripCards, List.append_assoc]
      omega
  unfold processBlocks
  rw [hfold cards [] 0 h]
  simp

/-- C3 (amended): for a non-empty card list whose title and rows text
consists only of canonical-safe characters and whose every title keeps at
least one non-blank line, extracting the rendered document succeeds and
reproduces the cards' normalized title and rows line content in order,
with ids renumbered `1..N` and `maxId = N`. -/
theorem extract_render_roundtrip (cards : List Card) (hne : cards ≠ [])
    (h : ∀ c ∈ cards, canonicalSafeCard c = true ∧ keptLines (textOf c.title) ≠ []) :
    parseHTMLToCards (renderedDoc cards) =
      .ok ⟨roundtripCards 0 cards, cards.length⟩ := by
  rw [parseHTMLToCards_cases]
  have hq := qsa_specCard_renderedDoc cards
  have hnonempty : (qsaForest specCardSel (renderedDoc cards)).isEmpty = false := by
    rw [hq]
    cases cards with
    | nil => exact absurd rfl hne
    | cons c rest => simp
  rw [if_neg (by simp [hnonempty]), hq, processBlocks_rendered cards h]

/-- Witness for `extract_render_roundtrip`: a one-card list with safe
multi-line text round trips with its id renumbered to 1 and its lines
trimmed. -/
theorem extract_render_roundtrip_witness :
    parseHTMLToCards (renderedDoc [⟨5, .str "  Hello \nx", .str "R1\nR2"⟩]) =
      .ok ⟨roundtripCards 0 [⟨5, .str "  Hello \nx", .str "R1\nR2"⟩], 1⟩ :=
  extract_render_roundtrip [⟨5, .str "  Hello \nx", .str "R1\nR2"⟩]
    (by simp) (by decide)

/-- C3 counterexample: the claim as stated fails for a card whose title is
a single blank — the text consists only of canonical-safe characters, yet
re-extraction yields the placeholder title `"Untitled"` instead of the
normalized (empty) title content. -/
theorem extract_render_counterexample :
    ([(⟨1, .str " ", .str "x"⟩ : Card)] ≠ []) ∧
    canonicalSafeCard ⟨1, .str " ", .str "x"⟩ = true ∧
    parseHTMLToCards (renderedDoc [⟨1, .str " ", .str "x"⟩]) =
      .ok ⟨[⟨1, .str "Untitled", .str "x"⟩], 1⟩ ∧
    specNormalize " " = "" ∧ ("Untitled" : String) ≠ "" :=
  ⟨by simp, by decide, by rfl, by rfl, by decide⟩

end Cards
